import Mathlib

/-!
# Verification of the Vietnamese ASR-correction core
(`src/Speech_to_Text_tool/audio_processor.py`)

A shallow embedding of the text-processing core of the audio processor:
the Vietnamese normalizer (`normalize_vi`), sentence splitter
(`split_sentences_vi`), the similarity engine (`difflib_ratio`,
`fuzzy_score_vi`, RapidFuzz's `WRatio`, `calculate_enhanced_similarity`
with its hash-keyed cache), the staged matchers (`exact_matches_vi`,
`fuzzy_topk_vi`, `ultra_fast_match`, `simple_sentence_match`,
`find_best_match`) and the validator (`validate_improvement`).

Modelling conventions:
* Python `str` values are lists of Unicode code points: `List Char`.
* Python floats are modelled by exact rationals (`ℚ`).  All the constants
  involved (0.2, 0.3, 0.55, 0.7, 0.95, …) and all scores are small
  rationals, far from any double-rounding boundary for the string sizes
  at play, so comparisons agree with IEEE-double evaluation.
* `unicodedata.normalize`/`str.lower`/category `Mn` are embedded
  table-driven for the full ASCII + Vietnamese repertoire (the character
  set the program processes); characters outside the tables are fixed
  points, exactly as they are for NFC/NFD/lower on that repertoire.
* `re`-based operations are embedded as explicit scanners implementing
  the concrete patterns used by the source (`\s+`, the sentence-split
  pattern, whitespace `split()`).
-/

namespace AudioProc

/-- Combining marks (Unicode category Mn) occurring in Vietnamese text: grave,
acute, circumflex, tilde, breve, hook above, horn, dot below.  These are the
characters that `unicodedata.category ch == "Mn"` filters out in
`normalize_vi`'s tone-stripping branch. -/
def viMarks : List Char :=
  ['\u0300', '\u0301', '\u0302', '\u0303', '\u0306', '\u0309', '\u031B', '\u0323']

/-- Canonical composition pairs (base, combining mark) -> precomposed character,
from the Unicode canonical decompositions of the Vietnamese repertoire. -/
def composeTable : List (Char × Char × Char) :=
  [('A', '\u0300', 'À'),
   ('A', '\u0301', 'Á'),
   ('A', '\u0302', 'Â'),
   ('A', '\u0303', 'Ã'),
   ('E', '\u0300', 'È'),
   ('E', '\u0301', 'É'),
   ('E', '\u0302', 'Ê'),
   ('I', '\u0300', 'Ì'),
   ('I', '\u0301', 'Í'),
   ('O', '\u0300', 'Ò'),
   ('O', '\u0301', 'Ó'),
   ('O', '\u0302', 'Ô'),
   ('O', '\u0303', 'Õ'),
   ('U', '\u0300', 'Ù'),
   ('U', '\u0301', 'Ú'),
   ('Y', '\u0301', 'Ý'),
   ('a', '\u0300', 'à'),
   ('a', '\u0301', 'á'),
   ('a', '\u0302', 'â'),
   ('a', '\u0303', 'ã'),
   ('e', '\u0300', 'è'),
   ('e', '\u0301', 'é'),
   ('e', '\u0302', 'ê'),
   ('i', '\u0300', 'ì'),
   ('i', '\u0301', 'í'),
   ('o', '\u0300', 'ò'),
   ('o', '\u0301', 'ó'),
   ('o', '\u0302', 'ô'),
   ('o', '\u0303', 'õ'),
   ('u', '\u0300', 'ù'),
   ('u', '\u0301', 'ú'),
   ('y', '\u0301', 'ý'),
   ('A', '\u0306', 'Ă'),
   ('a', '\u0306', 'ă'),
   ('I', '\u0303', 'Ĩ'),
   ('i', '\u0303', 'ĩ'),
   ('U', '\u0303', 'Ũ'),
   ('u', '\u0303', 'ũ'),
   ('O', '\u031B', 'Ơ'),
   ('o', '\u031B', 'ơ'),
   ('U', '\u031B', 'Ư'),
   ('u', '\u031B', 'ư'),
   ('A', '\u0323', 'Ạ'),
   ('a', '\u0323', 'ạ'),
   ('A', '\u0309', 'Ả'),
   ('a', '\u0309', 'ả'),
   ('Â', '\u0301', 'Ấ'),
   ('â', '\u0301', 'ấ'),
   ('Â', '\u0300', 'Ầ'),
   ('â', '\u0300', 'ầ'),
   ('Â', '\u0309', 'Ẩ'),
   ('â', '\u0309', 'ẩ'),
   ('Â', '\u0303', 'Ẫ'),
   ('â', '\u0303', 'ẫ'),
   ('Ạ', '\u0302', 'Ậ'),
   ('ạ', '\u0302', 'ậ'),
   ('Ă', '\u0301', 'Ắ'),
   ('ă', '\u0301', 'ắ'),
   ('Ă', '\u0300', 'Ằ'),
   ('ă', '\u0300', 'ằ'),
   ('Ă', '\u0309', 'Ẳ'),
   ('ă', '\u0309', 'ẳ'),
   ('Ă', '\u0303', 'Ẵ'),
   ('ă', '\u0303', 'ẵ'),
   ('Ạ', '\u0306', 'Ặ'),
   ('ạ', '\u0306', 'ặ'),
   ('E', '\u0323', 'Ẹ'),
   ('e', '\u0323', 'ẹ'),
   ('E', '\u0309', 'Ẻ'),
   ('e', '\u0309', 'ẻ'),
   ('E', '\u0303', 'Ẽ'),
   ('e', '\u0303', 'ẽ'),
   ('Ê', '\u0301', 'Ế'),
   ('ê', '\u0301', 'ế'),
   ('Ê', '\u0300', 'Ề'),
   ('ê', '\u0300', 'ề'),
   ('Ê', '\u0309', 'Ể'),
   ('ê', '\u0309', 'ể'),
   ('Ê', '\u0303', 'Ễ'),
   ('ê', '\u0303', 'ễ'),
   ('Ẹ', '\u0302', 'Ệ'),
   ('ẹ', '\u0302', 'ệ'),
   ('I', '\u0309', 'Ỉ'),
   ('i', '\u0309', 'ỉ'),
   ('I', '\u0323', 'Ị'),
   ('i', '\u0323', 'ị'),
   ('O', '\u0323', 'Ọ'),
   ('o', '\u0323', 'ọ'),
   ('O', '\u0309', 'Ỏ'),
   ('o', '\u0309', 'ỏ'),
   ('Ô', '\u0301', 'Ố'),
   ('ô', '\u0301', 'ố'),
   ('Ô', '\u0300', 'Ồ'),
   ('ô', '\u0300', 'ồ'),
   ('Ô', '\u0309', 'Ổ'),
   ('ô', '\u0309', 'ổ'),
   ('Ô', '\u0303', 'Ỗ'),
   ('ô', '\u0303', 'ỗ'),
   ('Ọ', '\u0302', 'Ộ'),
   ('ọ', '\u0302', 'ộ'),
   ('Ơ', '\u0301', 'Ớ'),
   ('ơ', '\u0301', 'ớ'),
   ('Ơ', '\u0300', 'Ờ'),
   ('ơ', '\u0300', 'ờ'),
   ('Ơ', '\u0309', 'Ở'),
   ('ơ', '\u0309', 'ở'),
   ('Ơ', '\u0303', 'Ỡ'),
   ('ơ', '\u0303', 'ỡ'),
   ('Ơ', '\u0323', 'Ợ'),
   ('ơ', '\u0323', 'ợ'),
   ('U', '\u0323', 'Ụ'),
   ('u', '\u0323', 'ụ'),
   ('U', '\u0309', 'Ủ'),
   ('u', '\u0309', 'ủ'),
   ('Ư', '\u0301', 'Ứ'),
   ('ư', '\u0301', 'ứ'),
   ('Ư', '\u0300', 'Ừ'),
   ('ư', '\u0300', 'ừ'),
   ('Ư', '\u0309', 'Ử'),
   ('ư', '\u0309', 'ử'),
   ('Ư', '\u0303', 'Ữ'),
   ('ư', '\u0303', 'ữ'),
   ('Ư', '\u0323', 'Ự'),
   ('ư', '\u0323', 'ự'),
   ('Y', '\u0300', 'Ỳ'),
   ('y', '\u0300', 'ỳ'),
   ('Y', '\u0323', 'Ỵ'),
   ('y', '\u0323', 'ỵ'),
   ('Y', '\u0309', 'Ỷ'),
   ('y', '\u0309', 'ỷ'),
   ('Y', '\u0303', 'Ỹ'),
   ('y', '\u0303', 'ỹ')]

/-- Full canonical (NFD) decompositions of the Vietnamese precomposed characters. -/
def nfdTable : List (Char × List Char) :=
  [('À', ['A', '\u0300']),
   ('Á', ['A', '\u0301']),
   ('Â', ['A', '\u0302']),
   ('Ã', ['A', '\u0303']),
   ('È', ['E', '\u0300']),
   ('É', ['E', '\u0301']),
   ('Ê', ['E', '\u0302']),
   ('Ì', ['I', '\u0300']),
   ('Í', ['I', '\u0301']),
   ('Ò', ['O', '\u0300']),
   ('Ó', ['O', '\u0301']),
   ('Ô', ['O', '\u0302']),
   ('Õ', ['O', '\u0303']),
   ('Ù', ['U', '\u0300']),
   ('Ú', ['U', '\u0301']),
   ('Ý', ['Y', '\u0301']),
   ('à', ['a', '\u0300']),
   ('á', ['a', '\u0301']),
   ('â', ['a', '\u0302']),
   ('ã', ['a', '\u0303']),
   ('è', ['e', '\u0300']),
   ('é', ['e', '\u0301']),
   ('ê', ['e', '\u0302']),
   ('ì', ['i', '\u0300']),
   ('í', ['i', '\u0301']),
   ('ò', ['o', '\u0300']),
   ('ó', ['o', '\u0301']),
   ('ô', ['o', '\u0302']),
   ('õ', ['o', '\u0303']),
   ('ù', ['u', '\u0300']),
   ('ú', ['u', '\u0301']),
   ('ý', ['y', '\u0301']),
   ('Ă', ['A', '\u0306']),
   ('ă', ['a', '\u0306']),
   ('Ĩ', ['I', '\u0303']),
   ('ĩ', ['i', '\u0303']),
   ('Ũ', ['U', '\u0303']),
   ('ũ', ['u', '\u0303']),
   ('Ơ', ['O', '\u031B']),
   ('ơ', ['o', '\u031B']),
   ('Ư', ['U', '\u031B']),
   ('ư', ['u', '\u031B']),
   ('Ạ', ['A', '\u0323']),
   ('ạ', ['a', '\u0323']),
   ('Ả', ['A', '\u0309']),
   ('ả', ['a', '\u0309']),
   ('Ấ', ['A', '\u0302', '\u0301']),
   ('ấ', ['a', '\u0302', '\u0301']),
   ('Ầ', ['A', '\u0302', '\u0300']),
   ('ầ', ['a', '\u0302', '\u0300']),
   ('Ẩ', ['A', '\u0302', '\u0309']),
   ('ẩ', ['a', '\u0302', '\u0309']),
   ('Ẫ', ['A', '\u0302', '\u0303']),
   ('ẫ', ['a', '\u0302', '\u0303']),
   ('Ậ', ['A', '\u0323', '\u0302']),
   ('ậ', ['a', '\u0323', '\u0302']),
   ('Ắ', ['A', '\u0306', '\u0301']),
   ('ắ', ['a', '\u0306', '\u0301']),
   ('Ằ', ['A', '\u0306', '\u0300']),
   ('ằ', ['a', '\u0306', '\u0300']),
   ('Ẳ', ['A', '\u0306', '\u0309']),
   ('ẳ', ['a', '\u0306', '\u0309']),
   ('Ẵ', ['A', '\u0306', '\u0303']),
   ('ẵ', ['a', '\u0306', '\u0303']),
   ('Ặ', ['A', '\u0323', '\u0306']),
   ('ặ', ['a', '\u0323', '\u0306']),
   ('Ẹ', ['E', '\u0323']),
   ('ẹ', ['e', '\u0323']),
   ('Ẻ', ['E', '\u0309']),
   ('ẻ', ['e', '\u0309']),
   ('Ẽ', ['E', '\u0303']),
   ('ẽ', ['e', '\u0303']),
   ('Ế', ['E', '\u0302', '\u0301']),
   ('ế', ['e', '\u0302', '\u0301']),
   ('Ề', ['E', '\u0302', '\u0300']),
   ('ề', ['e', '\u0302', '\u0300']),
   ('Ể', ['E', '\u0302', '\u0309']),
   ('ể', ['e', '\u0302', '\u0309']),
   ('Ễ', ['E', '\u0302', '\u0303']),
   ('ễ', ['e', '\u0302', '\u0303']),
   ('Ệ', ['E', '\u0323', '\u0302']),
   ('ệ', ['e', '\u0323', '\u0302']),
   ('Ỉ', ['I', '\u0309']),
   ('ỉ', ['i', '\u0309']),
   ('Ị', ['I', '\u0323']),
   ('ị', ['i', '\u0323']),
   ('Ọ', ['O', '\u0323']),
   ('ọ', ['o', '\u0323']),
   ('Ỏ', ['O', '\u0309']),
   ('ỏ', ['o', '\u0309']),
   ('Ố', ['O', '\u0302', '\u0301']),
   ('ố', ['o', '\u0302', '\u0301']),
   ('Ồ', ['O', '\u0302', '\u0300']),
   ('ồ', ['o', '\u0302', '\u0300']),
   ('Ổ', ['O', '\u0302', '\u0309']),
   ('ổ', ['o', '\u0302', '\u0309']),
   ('Ỗ', ['O', '\u0302', '\u0303']),
   ('ỗ', ['o', '\u0302', '\u0303']),
   ('Ộ', ['O', '\u0323', '\u0302']),
   ('ộ', ['o', '\u0323', '\u0302']),
   ('Ớ', ['O', '\u031B', '\u0301']),
   ('ớ', ['o', '\u031B', '\u0301']),
   ('Ờ', ['O', '\u031B', '\u0300']),
   ('ờ', ['o', '\u031B', '\u0300']),
   ('Ở', ['O', '\u031B', '\u0309']),
   ('ở', ['o', '\u031B', '\u0309']),
   ('Ỡ', ['O', '\u031B', '\u0303']),
   ('ỡ', ['o', '\u031B', '\u0303']),
   ('Ợ', ['O', '\u031B', '\u0323']),
   ('ợ', ['o', '\u031B', '\u0323']),
   ('Ụ', ['U', '\u0323']),
   ('ụ', ['u', '\u0323']),
   ('Ủ', ['U', '\u0309']),
   ('ủ', ['u', '\u0309']),
   ('Ứ', ['U', '\u031B', '\u0301']),
   ('ứ', ['u', '\u031B', '\u0301']),
   ('Ừ', ['U', '\u031B', '\u0300']),
   ('ừ', ['u', '\u031B', '\u0300']),
   ('Ử', ['U', '\u031B', '\u0309']),
   ('ử', ['u', '\u031B', '\u0309']),
   ('Ữ', ['U', '\u031B', '\u0303']),
   ('ữ', ['u', '\u031B', '\u0303']),
   ('Ự', ['U', '\u031B', '\u0323']),
   ('ự', ['u', '\u031B', '\u0323']),
   ('Ỳ', ['Y', '\u0300']),
   ('ỳ', ['y', '\u0300']),
   ('Ỵ', ['Y', '\u0323']),
   ('ỵ', ['y', '\u0323']),
   ('Ỷ', ['Y', '\u0309']),
   ('ỷ', ['y', '\u0309']),
   ('Ỹ', ['Y', '\u0303']),
   ('ỹ', ['y', '\u0303'])]

/-- Unicode simple lowercase mappings for ASCII letters and the Vietnamese repertoire
(str.lower of Python). -/
def lowerTable : List (Char × Char) :=
  [('A', 'a'),
   ('B', 'b'),
   ('C', 'c'),
   ('D', 'd'),
   ('E', 'e'),
   ('F', 'f'),
   ('G', 'g'),
   ('H', 'h'),
   ('I', 'i'),
   ('J', 'j'),
   ('K', 'k'),
   ('L', 'l'),
   ('M', 'm'),
   ('N', 'n'),
   ('O', 'o'),
   ('P', 'p'),
   ('Q', 'q'),
   ('R', 'r'),
   ('S', 's'),
   ('T', 't'),
   ('U', 'u'),
   ('V', 'v'),
   ('W', 'w'),
   ('X', 'x'),
   ('Y', 'y'),
   ('Z', 'z'),
   ('À', 'à'),
   ('Á', 'á'),
   ('Â', 'â'),
   ('Ã', 'ã'),
   ('È', 'è'),
   ('É', 'é'),
   ('Ê', 'ê'),
   ('Ì', 'ì'),
   ('Í', 'í'),
   ('Ò', 'ò'),
   ('Ó', 'ó'),
   ('Ô', 'ô'),
   ('Õ', 'õ'),
   ('Ù', 'ù'),
   ('Ú', 'ú'),
   ('Ý', 'ý'),
   ('Ă', 'ă'),
   ('Ĩ', 'ĩ'),
   ('Ũ', 'ũ'),
   ('Ơ', 'ơ'),
   ('Ư', 'ư'),
   ('Ạ', 'ạ'),
   ('Ả', 'ả'),
   ('Ấ', 'ấ'),
   ('Ầ', 'ầ'),
   ('Ẩ', 'ẩ'),
   ('Ẫ', 'ẫ'),
   ('Ậ', 'ậ'),
   ('Ắ', 'ắ'),
   ('Ằ', 'ằ'),
   ('Ẳ', 'ẳ'),
   ('Ẵ', 'ẵ'),
   ('Ặ', 'ặ'),
   ('Ẹ', 'ẹ'),
   ('Ẻ', 'ẻ'),
   ('Ẽ', 'ẽ'),
   ('Ế', 'ế'),
   ('Ề', 'ề'),
   ('Ể', 'ể'),
   ('Ễ', 'ễ'),
   ('Ệ', 'ệ'),
   ('Ỉ', 'ỉ'),
   ('Ị', 'ị'),
   ('Ọ', 'ọ'),
   ('Ỏ', 'ỏ'),
   ('Ố', 'ố'),
   ('Ồ', 'ồ'),
   ('Ổ', 'ổ'),
   ('Ỗ', 'ỗ'),
   ('Ộ', 'ộ'),
   ('Ớ', 'ớ'),
   ('Ờ', 'ờ'),
   ('Ở', 'ở'),
   ('Ỡ', 'ỡ'),
   ('Ợ', 'ợ'),
   ('Ụ', 'ụ'),
   ('Ủ', 'ủ'),
   ('Ứ', 'ứ'),
   ('Ừ', 'ừ'),
   ('Ử', 'ử'),
   ('Ữ', 'ữ'),
   ('Ự', 'ự'),
   ('Ỳ', 'ỳ'),
   ('Ỵ', 'ỵ'),
   ('Ỷ', 'ỷ'),
   ('Ỹ', 'ỹ'),
   ('Đ', 'đ')]

/-- `unicodedata.category ch == "Mn"` on the modelled repertoire. -/
def isMn (c : Char) : Bool := viMarks.contains c

/-- Unicode canonical composition restricted to base+mark pairs: look up the
pair in `composeTable`.  Used by the NFC pass; outside the table (in
particular whenever the second character is not a combining mark) no
composition happens, as in full Unicode NFC on this repertoire. -/
def composePair (a m : Char) : Option Char :=
  (composeTable.find? (fun t => t.1 == a && t.2.1 == m)).map (fun t => t.2.2)

/-- Worker for `nfc`: `s` is the pending (possibly already composed)
character, the list is the remaining input.  Greedy left-to-right canonical
composition, which coincides with Unicode NFC on sequences over the
modelled repertoire (all Vietnamese tone marks sit in canonical order). -/
def nfcGo (s : Char) : List Char → List Char
  | [] => [s]
  | c :: rest =>
    match composePair s c with
    | some s2 => nfcGo s2 rest
    | none => s :: nfcGo c rest

/-- `unicodedata.normalize("NFC", s)` on the modelled repertoire. -/
def nfc : List Char → List Char
  | [] => []
  | c :: rest => nfcGo c rest

/-- Full canonical decomposition of one character (identity off the table). -/
def nfdChar (c : Char) : List Char :=
  ((nfdTable.find? (fun t => t.1 == c)).map (fun t => t.2)).getD [c]

/-- `unicodedata.normalize("NFD", s)` on the modelled repertoire. -/
def nfd (l : List Char) : List Char := l.flatMap nfdChar

/-- `str.lower` of Python on the modelled repertoire (identity off the table). -/
def lowerChar (c : Char) : Char :=
  ((lowerTable.find? (fun t => t.1 == c)).map (fun t => t.2)).getD c

/-- Python whitespace for `str.strip`/`str.split`/regex `\s` (the ASCII
whitespace class; the strings processed here contain no exotic Unicode
spaces). -/
def isPySpace (c : Char) : Bool :=
  c == ' ' || c == '\t' || c == '\n' || c == '\r' || c == '\x0b' || c == '\x0c'

/-- Remove trailing whitespace (the right half of `str.strip`). -/
def rtrim : List Char → List Char
  | [] => []
  | c :: rest =>
    match rtrim rest with
    | [] => if isPySpace c then [] else [c]
    | r => c :: r

/-- `str.strip()`: drop leading and trailing whitespace. -/
def pyStrip (l : List Char) : List Char := rtrim (l.dropWhile isPySpace)

/-- `re.sub(r"\s+", " ", s)`: every maximal whitespace run becomes one
space.  (Structurally recursive: inside a run all but the last whitespace
character are dropped, the last one becomes a space.) -/
def collapseWs : List Char → List Char
  | [] => []
  | [c] => if isPySpace c then [' '] else [c]
  | c :: d :: rest =>
    if isPySpace c && isPySpace d then collapseWs (d :: rest)
    else (if isPySpace c then ' ' else c) :: collapseWs (d :: rest)

/-- `normalize_vi` from the source: NFC → `strip()` → `lower()` → collapse
whitespace runs; with `strip_tone`, additionally NFD → drop combining
marks (category Mn) → NFC. -/
def normalize_vi (s : List Char) (strip_tone : Bool) : List Char :=
  let s1 := collapseWs ((pyStrip (nfc s)).map lowerChar)
  if strip_tone then nfc ((nfd s1).filter (fun c => !(isMn c))) else s1

/-- Worker for `pySplitWs`; `acc` holds the current word reversed. -/
def splitWsGo : List Char → List Char → List (List Char)
  | acc, [] => if acc.isEmpty then [] else [acc.reverse]
  | acc, c :: rest =>
    if isPySpace c then
      if acc.isEmpty then splitWsGo [] rest else acc.reverse :: splitWsGo [] rest
    else splitWsGo (c :: acc) rest

/-- Python `str.split()` (no argument): split on whitespace runs, dropping
empty pieces. -/
def pySplitWs (l : List Char) : List (List Char) := splitWsGo [] l

/-- `len(s.split())`, the word count used throughout the source. -/
def wordCount (l : List Char) : Nat := (pySplitWs l).length

/-- Sentence-terminating punctuation of the split pattern. -/
def sentTerms : List Char := ['.', '!', '?', '…']

/-- Scanner mode for the sentence-split regex
`(?<=[\.\!\?…])\s+|\n+`: inside a `\s+` match after a terminator, inside
a `\n+` match, or plain scanning. -/
inductive SentMode
| norm
| wsRun
| nlRun
deriving DecidableEq

/-- Scanner state: finished parts (reversed list), current segment
(reversed), previous character (for the lookbehind), mode. -/
structure SentState where
  parts : List (List Char)
  seg : List Char
  prev : Option Char
  mode : SentMode

/-- One step of the `re.split` scanner.  In `norm` mode a split starts
either when the previous character is a terminator and the current one is
whitespace (first alternative, consuming the whole `\s+` run) or at a
newline (second alternative, consuming the `\n+` run). -/
def sentStep (st : SentState) (c : Char) : SentState :=
  match st.mode with
  | SentMode.wsRun =>
    if isPySpace c then ⟨st.parts, st.seg, some c, SentMode.wsRun⟩
    else ⟨st.parts, [c], some c, SentMode.norm⟩
  | SentMode.nlRun =>
    if c == '\n' then ⟨st.parts, st.seg, some c, SentMode.nlRun⟩
    else ⟨st.parts, [c], some c, SentMode.norm⟩
  | SentMode.norm =>
    if (match st.prev with
        | some p => sentTerms.contains p
        | none => false) && isPySpace c then
      ⟨st.seg.reverse :: st.parts, [], some c, SentMode.wsRun⟩
    else if c == '\n' then
      ⟨st.seg.reverse :: st.parts, [], some c, SentMode.nlRun⟩
    else ⟨st.parts, c :: st.seg, some c, SentMode.norm⟩

/-- `re.split(r'(?<=[\.\!\?…])\s+|\n+', text)`. -/
def sentSplitRaw (text : List Char) : List (List Char) :=
  let st := text.foldl sentStep ⟨[], [], none, SentMode.norm⟩
  (st.seg.reverse :: st.parts).reverse

/-- `split_sentences_vi` from the source: regex split, then
`[p.strip() for p in parts if p and p.strip()]`. -/
def split_sentences_vi (text : List Char) : List (List Char) :=
  (sentSplitRaw text).filterMap (fun p =>
    let q := pyStrip p
    if q.isEmpty then none else some q)

/-- Length of the longest common prefix of two character lists. -/
def commonHeadLen : List Char → List Char → Nat
  | a :: as, b :: bs => if a == b then commonHeadLen as bs + 1 else 0
  | _, _ => 0

/-- `difflib.SequenceMatcher.find_longest_match` over the whole ranges:
the longest common contiguous block as `(i, j, size)`, maximizing size
with ties broken by the lowest `i`, then the lowest `j` (no junk: the
strings handled here are far below difflib's autojunk threshold of 200).
-/
def findLongestMatch (a b : List Char) : Nat × Nat × Nat :=
  (List.range a.length).foldl (fun best i =>
    (List.range b.length).foldl (fun best j =>
      let k := commonHeadLen (a.drop i) (b.drop j)
      if k > best.2.2 then (i, j, k) else best) best) (0, 0, 0)

/-- Total size of the recursively found matching blocks of
`SequenceMatcher.get_matching_blocks`.  The fuel strictly exceeds the
recursion depth (each level with a nonzero block strictly shrinks `a`),
so with fuel `|a| + |b| + 1` this is the exact difflib value. -/
def smMatchTotal : Nat → List Char → List Char → Nat
  | 0, _, _ => 0
  | fuel + 1, a, b =>
    let ijk := findLongestMatch a b
    let i := ijk.1
    let j := ijk.2.1
    let k := ijk.2.2
    if k == 0 then 0
    else
      smMatchTotal fuel (a.take i) (b.take j) + k +
        smMatchTotal fuel (a.drop (i + k)) (b.drop (j + k))

/-- `difflib_ratio` from the source: `SequenceMatcher(None, a, b).ratio()`,
the Ratcliff–Obershelp similarity `2·M/(|a|+|b|)` (1.0 for two empties). -/
def difflib_ratio (a b : List Char) : ℚ :=
  if a.length + b.length == 0 then 1
  else 2 * (smMatchTotal (a.length + b.length + 1) a b : ℚ) / ((a.length : ℚ) + (b.length : ℚ))

/-- `fuzzy_score_vi` from the source: the maximum of the Ratcliff–Obershelp
ratios of the tone-preserving and the tone-stripped normalizations.  (The
`strip_tone` parameter is accepted and ignored, exactly as in the source,
which always computes both variants.) -/
def fuzzy_score_vi (query candidate : List Char) (strip_tone : Bool) : ℚ :=
  max (difflib_ratio (normalize_vi query false) (normalize_vi candidate false))
      (difflib_ratio (normalize_vi query true) (normalize_vi candidate true))

/-- One DP step for the longest common subsequence length: given `ca`,
the remaining `b`, the old row (aligned at the current position) and the
previous new-row value, emit the rest of the new row. -/
def lcsStepGo (ca : Char) : List Char → List Nat → Nat → List Nat
  | cb :: bs, rj :: rest, prev =>
    let rj1 := rest.headD 0
    let nv := if ca == cb then rj + 1 else max prev rj1
    nv :: lcsStepGo ca bs rest nv
  | _, _, _ => []

/-- Length of the longest common subsequence (row-DP, structurally
recursive so that kernel evaluation works). -/
def lcsLen (a b : List Char) : Nat :=
  (a.foldl (fun row ca => 0 :: lcsStepGo ca b row 0) (List.replicate (b.length + 1) 0)).getLastD 0

/-- RapidFuzz normalized InDel similarity: `(|a|+|b|-dist)/(|a|+|b|)`
with `dist = |a|+|b|-2·lcs` (1.0 for two empties). -/
def indel_sim (a b : List Char) : ℚ :=
  if a.length + b.length == 0 then 1
  else 2 * (lcsLen a b : ℚ) / ((a.length : ℚ) + (b.length : ℚ))

/-- RapidFuzz `fuzz.ratio` (0..100). -/
def fuzz_ratio (a b : List Char) : ℚ := 100 * indel_sim a b

/-- Python string `<` (lexicographic in code points). -/
def listLt : List Char → List Char → Bool
  | [], [] => false
  | [], _ :: _ => true
  | _ :: _, [] => false
  | a :: as, b :: bs => if a == b then listLt as bs else decide (a < b)

/-- Python `sorted` on strings (any sort agrees: the order is total and
duplicate strings are indistinguishable). -/
def sortStrs (ts : List (List Char)) : List (List Char) :=
  List.insertionSort (fun x y => listLt y x = false) ts

/-- `" ".join(...)`. -/
def joinSpace (ts : List (List Char)) : List Char := (ts.intersperse [' ']).flatten

/-- RapidFuzz `token_sort_ratio`: `fuzz.ratio` of the space-joined sorted
token lists. -/
def token_sort_ratio (a b : List Char) : ℚ :=
  fuzz_ratio (joinSpace (sortStrs (pySplitWs a))) (joinSpace (sortStrs (pySplitWs b)))

/-- RapidFuzz `token_set_ratio`: set-decompose the token sets and compare
the joined sorted differences, crediting the common part. -/
def token_set_ratio (a b : List Char) : ℚ :=
  let ta := (pySplitWs a).eraseDups
  let tb := (pySplitWs b).eraseDups
  if ta.isEmpty || tb.isEmpty then 0
  else
    let sect := ta.filter (fun t => tb.contains t)
    let diffAB := ta.filter (fun t => !(tb.contains t))
    let diffBA := tb.filter (fun t => !(ta.contains t))
    if !sect.isEmpty && (diffAB.isEmpty || diffBA.isEmpty) then 100
    else
      let abJ := joinSpace (sortStrs diffAB)
      let baJ := joinSpace (sortStrs diffBA)
      let sectLen := (joinSpace sect).length
      let bonus : Nat := if sectLen == 0 then 0 else 1
      let sectAB := sectLen + bonus + abJ.length
      let sectBA := sectLen + bonus + baJ.length
      let dist : ℚ := ((abJ.length : ℚ) + (baJ.length : ℚ)) - 2 * (lcsLen abJ baJ : ℚ)
      let r1 : ℚ := if sectAB + sectBA == 0 then 100 else 100 - 100 * dist / ((sectAB : ℚ) + (sectBA : ℚ))
      if sectLen == 0 then r1
      else
        let rAB : ℚ := 100 - 100 * ((bonus : ℚ) + (abJ.length : ℚ)) / ((sectLen : ℚ) + (sectAB : ℚ))
        let rBA : ℚ := 100 - 100 * ((bonus : ℚ) + (baJ.length : ℚ)) / ((sectLen : ℚ) + (sectBA : ℚ))
        max r1 (max rAB rBA)

/-- RapidFuzz `token_ratio`: max of `token_sort_ratio` and `token_set_ratio`. -/
def token_ratio (a b : List Char) : ℚ := max (token_sort_ratio a b) (token_set_ratio a b)

/-- RapidFuzz `partial_ratio`: the best `fuzz.ratio` alignment of the
shorter string against the window sweep over the longer one (windows of
the needle's length plus the clipped boundary windows). -/
def windowed_ratio (a b : List Char) : ℚ :=
  let needle := if a.length ≤ b.length then a else b
  let hay := if a.length ≤ b.length then b else a
  let m := needle.length
  let n := hay.length
  if m == 0 then 100
  else
    (List.range (n + m - 1)).foldl (fun best k =>
      let w := if k + 1 < m then hay.take (k + 1) else (hay.drop (k + 1 - m)).take m
      max best (fuzz_ratio needle w)) 0

/-- RapidFuzz `partial_token_sort_ratio`. -/
def windowed_token_sort_ratio (a b : List Char) : ℚ :=
  windowed_ratio (joinSpace (sortStrs (pySplitWs a))) (joinSpace (sortStrs (pySplitWs b)))

/-- RapidFuzz `partial_token_set_ratio`: 100 as soon as the token sets
intersect, otherwise a windowed comparison of the joined sorted sets. -/
def windowed_token_set_ratio (a b : List Char) : ℚ :=
  let ta := (pySplitWs a).eraseDups
  let tb := (pySplitWs b).eraseDups
  if !(ta.filter (fun t => tb.contains t)).isEmpty then 100
  else windowed_ratio (joinSpace (sortStrs ta)) (joinSpace (sortStrs tb))

/-- RapidFuzz `partial_token_ratio`. -/
def windowed_token_ratio (a b : List Char) : ℚ :=
  max (windowed_token_sort_ratio a b) (windowed_token_set_ratio a b)

/-- RapidFuzz `fuzz.WRatio` (0..100): 0 on an empty side; for similar
lengths the max of `ratio` and `0.95·token_ratio`; for very different
lengths additionally the windowed variants scaled by 0.9 (length ratio
below 8) or 0.6. -/
def WRatio (a b : List Char) : ℚ :=
  if a.isEmpty || b.isEmpty then 0
  else
    let lenRatio : ℚ := (max a.length b.length : ℚ) / (min a.length b.length : ℚ)
    let endRatio := fuzz_ratio a b
    if lenRatio < 3/2 then max endRatio ((19/20) * token_ratio a b)
    else
      let pScale : ℚ := if lenRatio < 8 then 9/10 else 3/5
      max (max endRatio (pScale * windowed_ratio a b))
          ((19/20) * pScale * windowed_token_ratio a b)

/-- Distinct words of a normalized string, first occurrences first
(Python `set(s.split())`, with explicit membership tests below). -/
def uniqWords (l : List Char) : List (List Char) := (pySplitWs l).eraseDups

/-- `calculate_enhanced_similarity` from the source, as a pure function of
the two texts (the cache layer is modelled separately): 0.0 if either
input is falsy, otherwise
`(viFuzzy·0.5 + WRatio/100·0.3 + jaccard·0.2) · lengthPenalty` where the
Jaccard index uses the tone-preserving normalized word sets and the
length penalty is `min/max` of the normalized word counts (1.0 when both
are 0). -/
def calculate_enhanced_similarity (text1 text2 : List Char) : ℚ :=
  if text1.isEmpty || text2.isEmpty then 0
  else
    let viFuzzyScore := fuzzy_score_vi text1 text2 false
    let n1 := normalize_vi text1 false
    let n2 := normalize_vi text2 false
    let wratio := WRatio n1 n2 / 100
    let w1 := uniqWords n1
    let w2 := uniqWords n2
    let jaccard : ℚ :=
      if !w1.isEmpty && !w2.isEmpty then
        ((w1.filter (fun t => w2.contains t)).length : ℚ) /
          ((w1 ++ w2.filter (fun t => !(w1.contains t))).length : ℚ)
      else 0
    let len1 := wordCount n1
    let len2 := wordCount n2
    let lengthPenalty : ℚ :=
      if max len1 len2 > 0 then (min len1 len2 : ℚ) / (max len1 len2 : ℚ) else 1
    (viFuzzyScore * (1/2) + wratio * (3/10) + jaccard * (1/5)) * lengthPenalty

/-- The similarity cache: a Python dict in insertion order from the key
`f"{hash(text1)}_{hash(text2)}"` to the stored float.  The key is
modelled as the pair of hash values (the decimal representations joined
by `"_"` are injective in the pair).  `hash` is a parameter of the model:
Python's string hash is opaque and per-process randomized. -/
abbrev SimCache := List ((Int × Int) × ℚ)

/-- `calculate_enhanced_similarity` including its cache layer: look the
key up first; on a miss compute, insert, and evict the oldest 500 entries
when the cache exceeds 3000 entries. -/
def calculate_enhanced_similarity_cached (h : List Char → Int) (cache : SimCache)
    (text1 text2 : List Char) : ℚ × SimCache :=
  if text1.isEmpty || text2.isEmpty then (0, cache)
  else
    let key := (h text1, h text2)
    match cache.find? (fun kv => kv.1 == key) with
    | some kv => (kv.2, cache)
    | none =>
      let combined := calculate_enhanced_similarity text1 text2
      let cache2 := cache ++ [(key, combined)]
      let cache3 := if cache2.length > 3000 then cache2.drop 500 else cache2
      (combined, cache3)

/-- Jaccard index over the word sets of two strings, 0 when either set is
empty (the specification's `jaccard(A,B)`). -/
def jaccardQ (x y : List Char) : ℚ :=
  let w1 := uniqWords x
  let w2 := uniqWords y
  if !w1.isEmpty && !w2.isEmpty then
    ((w1.filter (fun t => w2.contains t)).length : ℚ) /
      ((w1 ++ w2.filter (fun t => !(w1.contains t))).length : ℚ)
  else 0

/-- The Similarity Engine composite formula exactly as the specification
words it: weights 0.55/0.25/0.20, Jaccard as the max over tone-preserving
and tone-stripped word sets, length penalty over normalized word counts.
Written from the spec, to be compared with the source's
`calculate_enhanced_similarity`. -/
def spec_similarity (a b : List Char) : ℚ :=
  let viFuzzy := max (difflib_ratio (normalize_vi a false) (normalize_vi b false))
                     (difflib_ratio (normalize_vi a true) (normalize_vi b true))
  let n1 := normalize_vi a false
  let n2 := normalize_vi b false
  let wRatioS := WRatio n1 n2 / 100
  let jac := max (jaccardQ n1 n2) (jaccardQ (normalize_vi a true) (normalize_vi b true))
  let len1 := wordCount n1
  let len2 := wordCount n2
  let lenPenalty : ℚ :=
    if max len1 len2 > 0 then (min len1 len2 : ℚ) / (max len1 len2 : ℚ) else 1
  ((11/20) * viFuzzy + (1/4) * wRatioS + (1/5) * jac) * lenPenalty

/-- The composite formula with the corrections the source forces: weights
0.5/0.3/0.2 and the Jaccard signal taken on the tone-preserving word sets
only.  Written from the amended specification wording, to be compared
with the source's `calculate_enhanced_similarity`. -/
def spec_similarity_amended (a b : List Char) : ℚ :=
  let viFuzzy := max (difflib_ratio (normalize_vi a false) (normalize_vi b false))
                     (difflib_ratio (normalize_vi a true) (normalize_vi b true))
  let n1 := normalize_vi a false
  let n2 := normalize_vi b false
  let wRatioS := WRatio n1 n2 / 100
  let jac := jaccardQ n1 n2
  let len1 := wordCount n1
  let len2 := wordCount n2
  let lenPenalty : ℚ :=
    if max len1 len2 > 0 then (min len1 len2 : ℚ) / (max len1 len2 : ℚ) else 1
  ((1/2) * viFuzzy + (3/10) * wRatioS + (1/5) * jac) * lenPenalty

/-- A hit of `exact_matches_vi`: `{"index":…, "sentence":…, "score":1.0}`. -/
structure ExactHit where
  index : Nat
  sentence : List Char
  score : ℚ
deriving DecidableEq

/-- `exact_matches_vi` from the source: all sentences equal to the query
after Vietnamese normalization, in corpus order, each with score 1.0. -/
def exact_matches_vi (query : List Char) (sentences : List (List Char))
    (strip_tone : Bool) : List ExactHit :=
  let qn := normalize_vi query strip_tone
  sentences.enum.filterMap (fun p =>
    if normalize_vi p.2 strip_tone == qn then some ⟨p.1, p.2, 1⟩ else none)

/-- A scored sentence `(score, idx, sentence)` before ranking. -/
structure ScoredSent where
  score : ℚ
  index : Nat
  sentence : List Char
deriving DecidableEq

/-- An entry of `fuzzy_topk_vi`:
`{"rank":…, "score":…, "index":…, "sentence":…}`. -/
structure TopkEntry where
  rank : Nat
  score : ℚ
  index : Nat
  sentence : List Char
deriving DecidableEq

/-- The order `scored.sort(key=lambda x: x[0], reverse=True)` realizes:
score descending and, among equal scores, original index ascending (the
construction order — Python's sort is stable). -/
def scoredLe (x y : ScoredSent) : Prop :=
  x.score > y.score ∨ (x.score = y.score ∧ x.index ≤ y.index)

instance : DecidableRel scoredLe := fun x y => by
  unfold scoredLe
  infer_instance

/-- `fuzzy_topk_vi` from the source: score every sentence with
`fuzzy_score_vi`, sort by score descending (stable, hence index ascending
on ties), keep the first `topk` and attach 1-based ranks. -/
def fuzzy_topk_vi (query : List Char) (sentences : List (List Char))
    (topk : Nat) (strip_tone : Bool) : List TopkEntry :=
  let scored := sentences.enum.map (fun p =>
    ScoredSent.mk (fuzzy_score_vi query p.2 strip_tone) p.1 p.2)
  let sorted := List.insertionSort scoredLe scored
  (sorted.take topk).enum.map (fun p =>
    TopkEntry.mk (p.1 + 1) p.2.score p.2.index p.2.sentence)

/-- The reference value handed to the matching entry points — the shapes a
caller can supply.  `dictFull` is the transcript-cache record
`{full_text:…, sentences:[{text:…, …}, …]}` (the matcher only reads the
`text` fields, so the sentences are carried as their texts);
`dictNoSentences` a dict lacking the `sentences` key; `emptyDict` an
empty dict; `rawStr` a plain string; `pyNone` Python `None`. -/
inductive RefData
| dictFull (full_text : List Char) (sentences : List (List Char))
| dictNoSentences (full_text : List Char)
| emptyDict
| rawStr (s : List Char)
| pyNone
deriving DecidableEq

/-- Python truthiness of the reference value. -/
def refTruthy : RefData → Bool
  | .dictFull _ _ => true
  | .dictNoSentences _ => true
  | .emptyDict => false
  | .rawStr s => !s.isEmpty
  | .pyNone => false

/-- The candidate texts `ultra_fast_match` builds from the reference:
the `text` fields for the parsed shape, otherwise a fresh split of
`.get('full_text','')` (dict) or of the raw string. -/
def ufmSentences : RefData → List (List Char)
  | .dictFull _ ss => ss
  | .dictNoSentences ft => split_sentences_vi ft
  | .emptyDict => split_sentences_vi []
  | .rawStr s => split_sentences_vi s
  | .pyNone => []

/-- Stage-3/4 word-overlap guard of `ultra_fast_match`:
`len(trans_words & cand_words) / len(trans_words)` over the normalized
word sets (only evaluated when both sets are non-empty). -/
def wordOverlap (query cand : List Char) (strip_tone : Bool) : ℚ :=
  let tw := uniqWords (normalize_vi query strip_tone)
  let cw := uniqWords (normalize_vi cand strip_tone)
  ((tw.filter (fun t => cw.contains t)).length : ℚ) / (tw.length : ℚ)

/-- Stage 3 of `ultra_fast_match`: fuzzy top-3 tone-preserving; accept
the top candidate if its score exceeds 0.7, both normalized word sets are
non-empty, and the word overlap exceeds 0.3 or the score exceeds 0.85. -/
def ufmStage3Out (transcribed_text : List Char) (sentences : List (List Char)) :
    Option (List Char) :=
  match (fuzzy_topk_vi transcribed_text sentences 3 false).head? with
  | some c =>
    if c.score > 0.7 then
      let tw := uniqWords (normalize_vi transcribed_text false)
      let cw := uniqWords (normalize_vi c.sentence false)
      if !tw.isEmpty && !cw.isEmpty then
        if wordOverlap transcribed_text c.sentence false > 0.3 || c.score > 0.85 then
          some c.sentence
        else none
      else none
    else none
  | none => none

/-- Stage 4 of `ultra_fast_match`: fuzzy top-3 tone-stripped; accept on
score > 0.6 with overlap > 0.25 or score > 0.8. -/
def ufmStage4Out (transcribed_text : List Char) (sentences : List (List Char)) :
    Option (List Char) :=
  match (fuzzy_topk_vi transcribed_text sentences 3 true).head? with
  | some c =>
    if c.score > 0.6 then
      let tw := uniqWords (normalize_vi transcribed_text true)
      let cw := uniqWords (normalize_vi c.sentence true)
      if !tw.isEmpty && !cw.isEmpty then
        if wordOverlap transcribed_text c.sentence true > 0.25 || c.score > 0.8 then
          some c.sentence
        else none
      else none
    else none
  | none => none

/-- `ultra_fast_match` from the source: falsy guard, then the four-stage
cascade — exact tone-preserving, exact tone-stripped, fuzzy top-3
tone-preserving, fuzzy top-3 tone-stripped — and the input unchanged when
nothing accepts. -/
def ultra_fast_match (transcribed_text : List Char) (transcript_data : RefData) : List Char :=
  if !refTruthy transcript_data || transcribed_text.isEmpty then transcribed_text
  else
    let sentences := ufmSentences transcript_data
    if sentences.isEmpty then transcribed_text
    else
      match (exact_matches_vi transcribed_text sentences false).head? with
      | some h => h.sentence
      | none =>
      match (exact_matches_vi transcribed_text sentences true).head? with
      | some h => h.sentence
      | none =>
      match ufmStage3Out transcribed_text sentences with
      | some s => s
      | none =>
      match ufmStage4Out transcribed_text sentences with
      | some s => s
      | none => transcribed_text

/-- The candidate list `simple_sentence_match` builds: split the reference
text, strip, keep the fragments longer than 3 characters. -/
def ssmSentences (reference_text : List Char) : List (List Char) :=
  (split_sentences_vi reference_text).filterMap (fun s =>
    let s2 := pyStrip s
    if !s2.isEmpty && decide (s2.length > 3) then some s2 else none)

/-- Stage 3 of `simple_sentence_match`: fuzzy top-5 tone-preserving;
accept on score > 0.6 with word-count ratio in `[0.3, 4.0]`. -/
def ssmStage3Out (transcribed_text : List Char) (sentences : List (List Char)) :
    Option (List Char) :=
  match (fuzzy_topk_vi transcribed_text sentences 5 false).head? with
  | some c =>
    if c.score > 0.6 then
      let transLen := wordCount transcribed_text
      let candLen := wordCount c.sentence
      let lengthRatio : ℚ := if transLen > 0 then (candLen : ℚ) / (transLen : ℚ) else 1
      if 0.3 ≤ lengthRatio ∧ lengthRatio ≤ 4.0 then some c.sentence else none
    else none
  | none => none

/-- Stage 4 of `simple_sentence_match`: fuzzy top-5 tone-stripped; accept
on score > 0.5 with word-count ratio in `[0.2, 5.0]`. -/
def ssmStage4Out (transcribed_text : List Char) (sentences : List (List Char)) :
    Option (List Char) :=
  match (fuzzy_topk_vi transcribed_text sentences 5 true).head? with
  | some c =>
    if c.score > 0.5 then
      let transLen := wordCount transcribed_text
      let candLen := wordCount c.sentence
      let lengthRatio : ℚ := if transLen > 0 then (candLen : ℚ) / (transLen : ℚ) else 1
      if 0.2 ≤ lengthRatio ∧ lengthRatio ≤ 5.0 then some c.sentence else none
    else none
  | none => none

/-- `simple_sentence_match` from the source: the same cascade over a
fresh split of the reference string (top-5, length-ratio windows as the
fuzzy guards), and the input unchanged when nothing accepts. -/
def simple_sentence_match (transcribed_text reference_text : List Char) : List Char :=
  if reference_text.isEmpty || transcribed_text.isEmpty then transcribed_text
  else
    let sentences := ssmSentences reference_text
    if sentences.isEmpty then transcribed_text
    else
      match (exact_matches_vi transcribed_text sentences false).head? with
      | some h => h.sentence
      | none =>
      match (exact_matches_vi transcribed_text sentences true).head? with
      | some h => h.sentence
      | none =>
      match ssmStage3Out transcribed_text sentences with
      | some s => s
      | none =>
      match ssmStage4Out transcribed_text sentences with
      | some s => s
      | none => transcribed_text

/-- The runtime error Python raises when a dict without a `sentences` key
reaches `simple_sentence_match` (whose `re.split` rejects non-strings). -/
inductive PyErr
| typeError
deriving DecidableEq

/-- `find_best_match` from the source: falsy guard; a dict carrying
`sentences` goes through `ultra_fast_match` with a
`simple_sentence_match(text, full_text)` fallback when nothing changed;
anything else is passed to `simple_sentence_match` directly — which
raises `TypeError` when the value is a (non-empty) dict without
`sentences`, since `re.split` needs a string. -/
def find_best_match (transcribed_text : List Char) (reference_text : RefData) :
    Except PyErr (List Char) :=
  if !refTruthy reference_text || transcribed_text.isEmpty then .ok transcribed_text
  else
    match reference_text with
    | .dictFull ft ss =>
      let fast := ultra_fast_match transcribed_text (.dictFull ft ss)
      if fast ≠ transcribed_text then .ok fast
      else .ok (simple_sentence_match transcribed_text ft)
    | .dictNoSentences _ => .error .typeError
    | .emptyDict => .ok transcribed_text
    | .rawStr s => .ok (simple_sentence_match transcribed_text s)
    | .pyNone => .ok transcribed_text

/-- `validate_improvement` from the source, word-count gates in order:
reject on extreme length divergence (`cand < orig·0.2` or
`cand > orig·8`), reject a much shorter candidate (`< orig·0.4`) with
similarity < 0.2, reject a much longer one (`> orig·3`) with similarity
< 0.3, else accept.  (The `except: return True` of the source is dead for
string inputs — every operation involved is total — and the similarity
called here is the cache-transparent value.) -/
def validate_improvement (original candidate : List Char) : Bool :=
  let origLen := wordCount original
  let candLen := wordCount candidate
  if (candLen : ℚ) < (origLen : ℚ) * 0.2 ∨ (candLen : ℚ) > (origLen : ℚ) * 8 then false
  else if (candLen : ℚ) < (origLen : ℚ) * 0.4 ∧
      calculate_enhanced_similarity original candidate < 0.2 then false
  else if (candLen : ℚ) > (origLen : ℚ) * 3 ∧
      calculate_enhanced_similarity original candidate < 0.3 then false
  else true

/-- Modelled from the spec: a word character for the Tokenizer's
`tokenizeWords` (spec 4.2) — Latin letters including the Vietnamese
accented range, or digits.  The Vietnamese range is exactly the
precomposed repertoire plus đ/Đ. -/
def isWordChar (c : Char) : Bool :=
  c.isAlphanum || nfdTable.any (fun t => t.1 == c) || c == 'đ' || c == 'Đ'

/-- Modelled from the spec: a token of `tokenizeWords` (spec 4.2) — a word
(maximal alphanumeric run) or a single punctuation character. -/
inductive BToken
| word (w : List Char)
| punct (c : Char)
deriving DecidableEq

/-- Modelled from the spec: the tokenizer worker.  Each token carries
whether whitespace preceded it, so that re-joining can preserve adjacency
(spec 4.5 step 2: no inserted space between a word and an immediately
following punctuation token). -/
def tokGo : Bool → List Char → List Char → List (Bool × BToken)
  | pws, cur, [] => if cur.isEmpty then [] else [(pws, BToken.word cur.reverse)]
  | pws, cur, c :: rest =>
    if isWordChar c then tokGo pws (c :: cur) rest
    else if isPySpace c then
      (if cur.isEmpty then [] else [(pws, BToken.word cur.reverse)]) ++ tokGo true [] rest
    else
      (if cur.isEmpty then [] else [(pws, BToken.word cur.reverse)]) ++
        ((if cur.isEmpty then pws else false), BToken.punct c) :: tokGo false [] rest

/-- Modelled from the spec: `tokenizeWords` (spec 4.2) with adjacency
flags. -/
def tokenizeWords (text : List Char) : List (Bool × BToken) := tokGo false [] text

/-- Modelled from the spec: re-join tokens preserving adjacency. -/
def rejoinTokens (ts : List (Bool × BToken)) : List Char :=
  ts.flatMap (fun t =>
    (if t.1 then [' '] else []) ++ (match t.2 with | BToken.word w => w | BToken.punct c => [c]))

/-- Punctuation the booster's spacing pass normalizes around (spec 4.5
step 1: `,.!?:;`). -/
def boostPuncts : List Char := [',', '.', '!', '?', ':', ';']

/-- Modelled from the spec: drop whitespace that sits immediately before
a punctuation mark. -/
def rmWsBeforePunct : List Char → List Char
  | [] => []
  | c :: rest =>
    if isPySpace c &&
        (match rest.dropWhile isPySpace with
         | d :: _ => boostPuncts.contains d
         | [] => false) then
      rmWsBeforePunct rest
    else c :: rmWsBeforePunct rest

/-- Modelled from the spec: ensure a space right after each punctuation
mark that is directly followed by a non-space character. -/
def spaceAfterPunct : List Char → List Char
  | [] => []
  | [c] => [c]
  | c :: d :: rest =>
    if boostPuncts.contains c && !(isPySpace d) then c :: ' ' :: spaceAfterPunct (d :: rest)
    else c :: spaceAfterPunct (d :: rest)

/-- Modelled from the spec: punctuation-spacing normalization (spec 4.5
step 1): no whitespace before `,.!?:;`, exactly one space after them,
whitespace runs collapsed. -/
def punct_spacing_normalize (l : List Char) : List Char :=
  collapseWs (spaceAfterPunct (rmWsBeforePunct l))

/-- Does `pat` occur at the head of `l`? -/
def headMatches (pat l : List Char) : Bool := commonHeadLen pat l == pat.length

/-- Replace every (leftmost, non-overlapping) occurrence of `pat` by
`rep`; fuel-driven, `l.length + 1` suffices since every step consumes at
least one character. -/
def replaceAll (pat rep : List Char) : Nat → List Char → List Char
  | 0, l => l
  | _ + 1, [] => []
  | fuel + 1, c :: rest =>
    if !pat.isEmpty && headMatches pat (c :: rest) then
      rep ++ replaceAll pat rep fuel ((c :: rest).drop pat.length)
    else c :: replaceAll pat rep fuel rest

/-- Modelled from the spec: the booster's fixed table of punctuation and
spacing repairs (spec 4.5 step 1: collapse `" ,"` to `","`, unify em/en
dashes to `"-"`, collapse doubled periods). -/
def repairPairs : List (List Char × List Char) :=
  [([' ', ','], [',']), (['—'], ['-']), (['–'], ['-']), (['.', '.'], ['.'])]

/-- Modelled from the spec: apply the repair table, then the
punctuation-spacing normalization. -/
def punct_repairs (l : List Char) : List Char :=
  punct_spacing_normalize
    (repairPairs.foldl (fun s p => replaceAll p.1 p.2 (s.length + 1) s) l)

/-- Modelled from the spec: the donor's tone-variant map (spec 4.5 step
2): tone-stripped base form → distinct tone-preserving variants, in donor
order. -/
def addVariant (m : List (List Char × List (List Char))) (base w : List Char) :
    List (List Char × List (List Char)) :=
  match m with
  | [] => [(base, [w])]
  | e :: rest =>
    if e.1 == base then
      (if e.2.contains w then e :: rest else (e.1, e.2 ++ [w]) :: rest)
    else e :: addVariant rest base w

/-- Modelled from the spec: build the base-form map from the donor's word
tokens. -/
def toneVariantsMap (donorToks : List (Bool × BToken)) :
    List (List Char × List (List Char)) :=
  donorToks.foldl (fun m t =>
    match t.2 with
    | BToken.word w => addVariant m (normalize_vi w true) w
    | BToken.punct _ => m) []

/-- Modelled from the spec: pick the donor variant whose length is closest
to the original token's, ties broken by donor order (spec 4.5 step 2). -/
def closestVariant (w : List Char) (vs : List (List Char)) : List Char :=
  match vs with
  | [] => w
  | v0 :: rest =>
    (rest.foldl (fun best v =>
      if ((v.length : Int) - (w.length : Int)).natAbs <
          ((best.length : Int) - (w.length : Int)).natAbs then v else best) v0)

/-- Modelled from the spec: project a single word through the donor map
(unchanged when its base form is unknown to the donor). -/
def projectWord (m : List (List Char × List (List Char))) (w : List Char) : List Char :=
  match m.find? (fun e => e.1 == normalize_vi w true) with
  | none => w
  | some e => closestVariant w e.2

/-- Modelled from the spec: diacritic projection over the token stream
(punctuation tokens pass through). -/
def projectTokens (m : List (List Char × List (List Char)))
    (ts : List (Bool × BToken)) : List (Bool × BToken) :=
  ts.map (fun t =>
    match t.2 with
    | BToken.word w => (t.1, BToken.word (projectWord m w))
    | BToken.punct c => (t.1, BToken.punct c))

/-- Modelled from the spec: `post_process_boost` (spec 4.5), the Diacritic
Booster, absent from `src/` (only this revision of the pipeline ships in
the repository).  Repair punctuation, project diacritics from the donor,
score against the donor with the Similarity Engine; if still below
`target`, retry from the tone-stripped repaired text and keep the better
attempt.  Returns `(bestText, bestScoreAgainstDonor)`. -/
def post_process_boost (text donor : List Char) (target : ℚ) : List Char × ℚ :=
  let repaired := punct_repairs text
  let m := toneVariantsMap (tokenizeWords donor)
  let attempt1 := punct_spacing_normalize (rejoinTokens (projectTokens m (tokenizeWords repaired)))
  let s1 := calculate_enhanced_similarity attempt1 donor
  if s1 ≥ target then (attempt1, s1)
  else
    let src2 := normalize_vi repaired true
    let attempt2 := punct_spacing_normalize (rejoinTokens (projectTokens m (tokenizeWords src2)))
    let s2 := calculate_enhanced_similarity attempt2 donor
    if s2 > s1 then (attempt2, s2) else (attempt1, s1)

/-- Adjacent characters compose no further: the invariant NFC output
satisfies. -/
def RComp (a b : Char) : Prop := composePair a b = none

/-- No bare combining-mark characters (marks may only occur inside
precomposed characters). -/
def noBareMarks (l : List Char) : Bool := l.all (fun c => !(isMn c))

/-- All whitespace is a single plain space, never two adjacent whitespace
characters: the canonical form `collapseWs` produces. -/
def wsCanonical : List Char → Bool
  | [] => true
  | [c] => !(isPySpace c) || c == ' '
  | c :: d :: rest =>
    (!(isPySpace c) || (c == ' ' && !(isPySpace d))) && wsCanonical (d :: rest)

/-- First character is not whitespace (or the list is empty). -/
def headNonWs (l : List Char) : Bool :=
  match l.head? with
  | some c => !(isPySpace c)
  | none => true

/-- Tone-strip a single character: the base of its canonical
decomposition (identity off the table).  On mark-free strings,
NFD → drop-Mn → NFC acts exactly as `map stripChar`. -/
def stripChar (c : Char) : Char := (nfdChar c).headD c

instance : IsTotal ScoredSent scoredLe :=
  ⟨fun a b => by
    unfold scoredLe
    rcases lt_trichotomy a.score b.score with h | h | h
    · exact Or.inr (Or.inl h)
    · rcases Nat.le_total a.index b.index with hi | hi
      · exact Or.inl (Or.inr ⟨h, hi⟩)
      · exact Or.inr (Or.inr ⟨h.symm, hi⟩)
    · exact Or.inl (Or.inl h)⟩

instance : IsTrans ScoredSent scoredLe :=
  ⟨fun a b c hab hbc => by
    unfold scoredLe at *
    rcases hab with h1 | ⟨h1, h1i⟩ <;> rcases hbc with h2 | ⟨h2, h2i⟩
    · exact Or.inl (lt_trans h2 h1)
    · exact Or.inl (h2 ▸ h1)
    · exact Or.inl (h1 ▸ h2)
    · exact Or.inr ⟨h1.trans h2, le_trans h1i h2i⟩⟩

set_option maxRecDepth 4000000
set_option maxHeartbeats 4000000

/-! ## Shared lemmas -/

theorem isEmpty_false_of_ne {α : Type} {l : List α} (h : l ≠ []) : l.isEmpty = false := by
  cases l with
  | nil => exact absurd rfl h
  | cons c t => rfl

/-! ## C1: the Similarity Engine composite formula -/

/-- C1 counterexample: at the concrete pair `("b a", "a b")` the source
computes `(0.5·viFuzzy + 0.3·wRatio + 0.2·jaccard)·lenPenalty = 391/600`,
while the formula claimed by the spec (weights 0.55/0.25/0.20, Jaccard as
a max with the tone-stripped word sets) gives `149/240`. -/
theorem C1_counterexample :
    calculate_enhanced_similarity "b a".data "a b".data ≠
      spec_similarity "b a".data "a b".data := by
  with_unfolding_all decide

/-- C1 (amended): for every pair of non-empty strings,
`calculate_enhanced_similarity a b` equals
`(0.5·viFuzzy + 0.3·wRatio + 0.2·jaccard) · lenPenalty`, where `viFuzzy`
is the max of the tone-preserving and tone-stripped Ratcliff–Obershelp
ratios of the normalized strings, `wRatio` is the weighted ratio of the
tone-preserving normalized strings divided by 100, `jaccard` is the
Jaccard similarity of the tone-preserving word sets (only), and
`lenPenalty` is `min/max` of the normalized word counts. -/
theorem C1_amended (a b : List Char) (ha : a ≠ []) (hb : b ≠ []) :
    calculate_enhanced_similarity a b = spec_similarity_amended a b := by
  have ha2 := isEmpty_false_of_ne ha
  have hb2 := isEmpty_false_of_ne hb
  unfold calculate_enhanced_similarity spec_similarity_amended fuzzy_score_vi jaccardQ
  simp only [ha2, hb2, Bool.or_self, Bool.false_or, if_false, Bool.false_eq_true]
  ring

/-- C1 witness: the amended formula at the concrete pair `("b a", "a b")`. -/
theorem C1_witness :
    ("b a".data ≠ ([] : List Char)) ∧
      calculate_enhanced_similarity "b a".data "a b".data =
        spec_similarity_amended "b a".data "a b".data :=
  ⟨by decide, C1_amended "b a".data "a b".data (by decide) (by decide)⟩

/-! ## C2: unsupported corpus shapes -/

/-- C2 counterexample: an empty dict is neither a parsed record with
`sentences` nor a raw string, yet `find_best_match` reports no error at
all — it returns the input as if no match were found.  (No
`UnsupportedCorpusShape` error exists anywhere in the source.) -/
theorem C2_counterexample :
    find_best_match "abc".data RefData.emptyDict = Except.ok "abc".data := rfl

/-- C2 (amended): `find_best_match` never reports a distinct
`UnsupportedCorpusShape` error.  A falsy unsupported reference (`None`,
empty dict) is silently treated as "no reference" and the input comes
back unchanged; a non-empty dict without a `sentences` key is passed to
`re.split`, which raises a plain `TypeError`. -/
theorem C2_amended (q ft : List Char) (hq : q ≠ []) :
    find_best_match q RefData.pyNone = Except.ok q ∧
    find_best_match q RefData.emptyDict = Except.ok q ∧
    find_best_match q (RefData.dictNoSentences ft) = Except.error PyErr.typeError := by
  have hq2 := isEmpty_false_of_ne hq
  refine ⟨rfl, rfl, ?_⟩
  unfold find_best_match
  simp [refTruthy, hq2]

/-- C2 witness: the amended behaviour at a concrete query and reference. -/
theorem C2_witness :
    ("abc".data ≠ ([] : List Char)) ∧
      find_best_match "abc".data RefData.pyNone = Except.ok "abc".data ∧
      find_best_match "abc".data RefData.emptyDict = Except.ok "abc".data ∧
      find_best_match "abc".data (RefData.dictNoSentences "x y.".data) =
        Except.error PyErr.typeError :=
  ⟨by decide, C2_amended "abc".data "x y.".data (by decide)⟩

/-! ## C3: cache transparency of the similarity score -/

/-- C3 counterexample: with a colliding hash (Python's 64-bit string hash
admits collisions and is the sole ingredient of the cache key), a prior
insertion for the pair `("a","a")` is returned verbatim for the distinct
pair `("a","b")`: the call yields 1 where the cache-free value is 0. -/
theorem C3_counterexample :
    (calculate_enhanced_similarity_cached (fun _ => 0)
        (calculate_enhanced_similarity_cached (fun _ => 0) [] "a".data "a".data).2
        "a".data "b".data).1 ≠
      calculate_enhanced_similarity "a".data "b".data := by
  with_unfolding_all decide

/-- C3 (amended): the cached call returns the cache-independent value
provided every cache entry filed under this pair's key holds this pair's
value — in particular whenever the hash is collision-free on the strings
involved.  Under a hash collision a stale value from another pair is
returned instead. -/
theorem C3_amended (h : List Char → Int) (cache : SimCache) (t1 t2 : List Char)
    (hw : ∀ kv ∈ cache, kv.1 = (h t1, h t2) → kv.2 = calculate_enhanced_similarity t1 t2) :
    (calculate_enhanced_similarity_cached h cache t1 t2).1 =
      calculate_enhanced_similarity t1 t2 := by
  unfold calculate_enhanced_similarity_cached
  by_cases he : (t1.isEmpty || t2.isEmpty) = true
  · rw [if_pos he]
    unfold calculate_enhanced_similarity
    rw [if_pos he]
  · rw [if_neg he]
    dsimp only
    cases hfind : cache.find? (fun kv => kv.1 == (h t1, h t2)) with
    | none => rfl
    | some kv =>
      have hm := List.mem_of_find?_eq_some hfind
      have hp := List.find?_some hfind
      have hk : kv.1 = (h t1, h t2) := by simpa using hp
      exact hw kv hm hk

/-- C3 witness: the amended statement at a concrete constant hash and a
one-entry cache holding the correct value under the colliding key. -/
theorem C3_witness :
    (∀ kv ∈ ([(((0 : Int), (0 : Int)), calculate_enhanced_similarity "a".data "b".data)] : SimCache),
        kv.1 = ((fun _ => (0 : Int)) "a".data, (fun _ => (0 : Int)) "b".data) →
        kv.2 = calculate_enhanced_similarity "a".data "b".data) ∧
      (calculate_enhanced_similarity_cached (fun _ => 0)
          [(((0 : Int), (0 : Int)), calculate_enhanced_similarity "a".data "b".data)]
          "a".data "b".data).1 =
        calculate_enhanced_similarity "a".data "b".data := by
  refine ⟨?_, C3_amended (fun _ => 0) _ "a".data "b".data ?_⟩ <;>
  · intro kv hkv hk
    rcases List.mem_singleton.mp hkv with rfl
    rfl

/-! ## C6: the validator's length gates -/

/-- C6 counterexample: `("a b c d e", "z")` has word counts 5 and 1 — the
ratio is exactly 0.2 — yet `validate_improvement` returns `false`: the
length rule indeed does not reject, but the short-candidate similarity
guard (`score ≥ 0.2` required when `cand < orig·0.4`) fires, because the
similarity of these texts is 0. -/
theorem C6_counterexample :
    wordCount "a b c d e".data = 5 * wordCount "z".data ∧
      validate_improvement "a b c d e".data "z".data = false := by
  constructor
  · decide
  · with_unfolding_all decide

/-- C6 (amended): with `orig`/`cand` the whitespace-split word counts,
`validate_improvement` returns `false` whenever `cand < orig·0.2` or
`cand > orig·8`; in particular it returns `false` at `cand = 0.19·orig`
(`orig > 0`).  At a ratio of exactly 0.2 the length rule is inclusive
(does not reject), but acceptance still depends on the short-candidate
similarity guard: the validator returns `true` iff
`calculate_enhanced_similarity ≥ 0.2`. -/
theorem C6_amended (original candidate : List Char) :
    ((5 * wordCount candidate < wordCount original ∨
        wordCount candidate > 8 * wordCount original) →
      validate_improvement original candidate = false) ∧
    ((100 * wordCount candidate = 19 * wordCount original ∧ 0 < wordCount original) →
      validate_improvement original candidate = false) ∧
    ((5 * wordCount candidate = wordCount original ∧ 0 < wordCount original) →
      (validate_improvement original candidate = true ↔
        (1 : ℚ)/5 ≤ calculate_enhanced_similarity original candidate)) := by
  have h02 : (0.2 : ℚ) = 1/5 := by norm_num
  have h04 : (0.4 : ℚ) = 2/5 := by norm_num
  refine ⟨?_, ?_, ?_⟩
  · intro h
    unfold validate_improvement
    rw [if_pos]
    rcases h with h | h
    · left
      rw [h02]
      have h5 : ((5 * wordCount candidate : Nat) : ℚ) < ((wordCount original : Nat) : ℚ) := by
        exact_mod_cast h
      push_cast at h5
      linarith
    · right
      have h8 : ((8 * wordCount original : Nat) : ℚ) < ((wordCount candidate : Nat) : ℚ) := by
        exact_mod_cast h
      push_cast at h8
      linarith
  · rintro ⟨h, hpos⟩
    unfold validate_improvement
    rw [if_pos]
    left
    rw [h02]
    have h19 : ((100 * wordCount candidate : Nat) : ℚ) = ((19 * wordCount original : Nat) : ℚ) := by
      exact_mod_cast h
    have hop : (0 : ℚ) < (wordCount original : ℚ) := by exact_mod_cast hpos
    push_cast at h19
    linarith
  · rintro ⟨h, hpos⟩
    have hq : ((wordCount candidate : ℚ)) * 5 = (wordCount original : ℚ) := by
      have := congrArg (fun n : Nat => (n : ℚ)) h
      push_cast at this
      linarith
    have hop : (0 : ℚ) < (wordCount original : ℚ) := by exact_mod_cast hpos
    unfold validate_improvement
    dsimp only
    split_ifs with hA hB hC
    · exfalso
      rcases hA with h1 | h1
      · norm_num at h1
        linarith
      · linarith
    · norm_num at hB
      simp only [Bool.false_eq_true, false_iff, not_le]
      linarith [hB.2]
    · exfalso
      linarith [hC.1]
    · norm_num at hB
      simp only [true_iff]
      exact hB (by linarith)

/-- C6 witness: the amended claim instantiated — `("a b c d e f", "z")`
(ratio below 0.2, rejected) and `("aa bb cc dd ee", "aa")` (ratio exactly
0.2: accepted iff the similarity clears 0.2, which here it does not). -/
theorem C6_witness :
    (5 * wordCount "z".data < wordCount "a b c d e f".data ∧
      validate_improvement "a b c d e f".data "z".data = false) ∧
    (5 * wordCount "aa".data = wordCount "aa bb cc dd ee".data ∧
      0 < wordCount "aa bb cc dd ee".data ∧
      (validate_improvement "aa bb cc dd ee".data "aa".data = true ↔
        (1 : ℚ)/5 ≤ calculate_enhanced_similarity "aa bb cc dd ee".data "aa".data)) :=
  ⟨⟨by decide, (C6_amended "a b c d e f".data "z".data).1 (Or.inl (by decide))⟩,
   ⟨by decide, by decide,
    (C6_amended "aa bb cc dd ee".data "aa".data).2.2 ⟨by decide, by decide⟩⟩⟩

/-! ## C4: exact-match precedence -/

/-- The head of `exact_matches_vi` is the first sentence (in corpus
order) whose normalization equals the query's, with score 1. -/
theorem exact_head_aux (qn : List Char) (st : Bool) :
    ∀ (S : List (List Char)) (n i : Nat) (sent : List Char),
      S.get? i = some sent →
      (normalize_vi sent st == qn) = true →
      (∀ j, j < i → ∀ s, S.get? j = some s → (normalize_vi s st == qn) = false) →
      ((List.enumFrom n S).filterMap (fun p =>
          if normalize_vi p.2 st == qn then some (ExactHit.mk p.1 p.2 1) else none)).head? =
        some ⟨n + i, sent, 1⟩ := by
  intro S
  induction S with
  | nil =>
    intro n i sent hget
    simp at hget
  | cons s S ih =>
    intro n i sent hget hm hfirst
    rw [List.enumFrom_cons]
    cases i with
    | zero =>
      have hs : s = sent := by simpa using hget
      subst hs
      have hmp : normalize_vi s st = qn := by simpa using hm
      simp [List.filterMap_cons, hmp]
    | succ j =>
      have h0 : (normalize_vi s st == qn) = false := hfirst 0 (Nat.succ_pos j) s rfl
      have hget2 : S.get? j = some sent := by simpa using hget
      have hfirst2 : ∀ k, k < j → ∀ x, S.get? k = some x →
          (normalize_vi x st == qn) = false := by
        intro k hk x hx
        exact hfirst (k + 1) (by omega) x (by simpa using hx)
      have := ih (n + 1) j sent hget2 hm hfirst2
      simp only [List.filterMap_cons, h0, Bool.false_eq_true, if_false]
      rw [this]
      congr 2
      omega

/-- C4 counterexample: at the empty query `""` with the candidate `" "`
(which normalizes to `""`, i.e. to the query's normalization), the
matcher returns `""` — the falsy-input guard fires before the exact
stage, so the matching sentence `" "` with score 1.0 is not returned. -/
theorem C4_counterexample :
    ultra_fast_match [] (RefData.dictFull "w".data [" ".data]) = [] ∧
      normalize_vi " ".data false = normalize_vi [] false ∧
      " ".data ≠ ([] : List Char) := by
  refine ⟨rfl, by decide, by decide⟩

/-- C4 (amended): for every non-empty query, if some candidate sentence
equals the query after tone-preserving normalization, `ultra_fast_match`
returns the first such sentence in original corpus order, and the
corresponding head of `exact_matches_vi` carries score 1.0; the fuzzy
stages are never consulted (the returned value is fixed by the exact
stage alone). -/
theorem C4_amended (q ft sent : List Char) (S : List (List Char)) (i : Nat)
    (hq : q ≠ [])
    (hget : S.get? i = some sent)
    (hm : normalize_vi sent false = normalize_vi q false)
    (hfirst : ∀ j, j < i → ∀ s, S.get? j = some s →
      normalize_vi s false ≠ normalize_vi q false) :
    ultra_fast_match q (RefData.dictFull ft S) = sent ∧
      (exact_matches_vi q S false).head? = some ⟨i, sent, 1⟩ := by
  have hmb : (normalize_vi sent false == normalize_vi q false) = true := by
    simpa using hm
  have hfirstb : ∀ j, j < i → ∀ s, S.get? j = some s →
      (normalize_vi s false == normalize_vi q false) = false := by
    intro j hj s hs
    simpa using hfirst j hj s hs
  have hhead : (exact_matches_vi q S false).head? = some ⟨i, sent, 1⟩ := by
    unfold exact_matches_vi
    have := exact_head_aux (normalize_vi q false) false S 0 i sent hget hmb hfirstb
    simpa [List.enum] using this
  refine ⟨?_, hhead⟩
  have hq2 := isEmpty_false_of_ne hq
  have hS : S.isEmpty = false := by
    cases S with
    | nil => simp at hget
    | cons a t => rfl
  unfold ultra_fast_match
  rw [if_neg (by simp [refTruthy, hq2])]
  dsimp only [ufmSentences]
  rw [if_neg (by simp [hS])]
  rw [hhead]

/-- C4 witness: the amended claim at the query `"hello"` against the
corpus `["x", "Hello"]` — the second sentence is the first (and only)
exact tone-preserving match and is returned. -/
theorem C4_witness :
    ultra_fast_match "hello".data (RefData.dictFull "w".data ["x".data, "Hello".data]) =
        "Hello".data ∧
      (exact_matches_vi "hello".data ["x".data, "Hello".data] false).head? =
        some ⟨1, "Hello".data, 1⟩ :=
  C4_amended "hello".data "w".data "Hello".data ["x".data, "Hello".data] 1
    (by decide) (by decide) (by decide)
    (by
      intro j hj s hs
      interval_cases j
      · simp at hs
        subst hs
        decide)

/-! ## C5: the no-qualifying-candidate fall-through -/

/-- C5: when no stage of the four-stage cascade accepts — no exact hit in
either tone mode and both fuzzy stages reject (threshold or guard) — the
matchers return the original query unchanged; a candidate below threshold
is never returned.  Both entry points are covered. -/
theorem C5_no_stage_unchanged :
    (∀ (q ft : List Char) (S : List (List Char)),
      exact_matches_vi q S false = [] → exact_matches_vi q S true = [] →
      ufmStage3Out q S = none → ufmStage4Out q S = none →
      ultra_fast_match q (RefData.dictFull ft S) = q) ∧
    (∀ (q ref : List Char),
      exact_matches_vi q (ssmSentences ref) false = [] →
      exact_matches_vi q (ssmSentences ref) true = [] →
      ssmStage3Out q (ssmSentences ref) = none →
      ssmStage4Out q (ssmSentences ref) = none →
      simple_sentence_match q ref = q) := by
  constructor
  · intro q ft S h1 h2 h3 h4
    unfold ultra_fast_match
    by_cases hg : (!refTruthy (RefData.dictFull ft S) || q.isEmpty) = true
    · rw [if_pos hg]
    · rw [if_neg hg]
      dsimp only [ufmSentences]
      by_cases hs : S.isEmpty = true
      · rw [if_pos hs]
      · rw [if_neg hs]
        rw [h1, h2, h3, h4]
        rfl
  · intro q ref h1 h2 h3 h4
    unfold simple_sentence_match
    by_cases hg : (ref.isEmpty || q.isEmpty) = true
    · rw [if_pos hg]
    · rw [if_neg hg]
      by_cases hs : (ssmSentences ref).isEmpty = true
      · rw [if_pos hs]
      · rw [if_neg hs]
        rw [h1, h2, h3, h4]
        rfl

/-- C5 witness: the unrelated query `"aaa bbb"` against the corpus
`"zzzz qqqq wwww"` fails every stage of both cascades and comes back
unchanged. -/
theorem C5_witness :
    ultra_fast_match "aaa bbb".data
        (RefData.dictFull "zzzz qqqq wwww".data ["zzzz qqqq wwww".data]) = "aaa bbb".data ∧
      simple_sentence_match "aaa bbb".data "zzzz qqqq wwww".data = "aaa bbb".data :=
  ⟨C5_no_stage_unchanged.1 "aaa bbb".data "zzzz qqqq wwww".data ["zzzz qqqq wwww".data]
      (by with_unfolding_all decide) (by with_unfolding_all decide)
      (by with_unfolding_all decide) (by with_unfolding_all decide),
   C5_no_stage_unchanged.2 "aaa bbb".data "zzzz qqqq wwww".data
      (by with_unfolding_all decide) (by with_unfolding_all decide)
      (by with_unfolding_all decide) (by with_unfolding_all decide)⟩

/-! ## C9: the Diacritic Booster scenario (spec-modelled) -/

/-- C9 counterexample: on the spec's own scenario — text `"toi di lam"`,
donor `"Tôi đi làm."` — the booster modelled from the spec does not
return `"Tôi đi làm."`, and its score stays below the 0.80 target.  The
`đ` of `"đi"` is not a decomposable diacritic (tone-stripping preserves
it, spec 4.1), so the donor variant files under base `"đi"` and the ASR
token `"di"` finds no mapping; the donor's final period is not projected
either. -/
theorem C9_counterexample :
    (post_process_boost "toi di lam".data "Tôi đi làm.".data (4/5)).1 ≠
        "Tôi đi làm.".data ∧
      ¬((post_process_boost "toi di lam".data "Tôi đi làm.".data (4/5)).2 ≥ 4/5) := by
  constructor
  · with_unfolding_all decide
  · with_unfolding_all decide

/-- C9 (amended): on that scenario the modelled booster returns exactly
`("Tôi di làm", 127/175)` — diacritics are restored on `"toi"` and
`"lam"` but not on `"di"`, and the score against the donor is
127/175 ≈ 0.726 < 0.80. -/
theorem C9_amended :
    post_process_boost "toi di lam".data "Tôi đi làm.".data (4/5) =
      ("Tôi di làm".data, 127/175) := by
  with_unfolding_all decide

/-! ## C10: results are verbatim (query or a candidate sentence) -/

theorem head?_mem {α : Type} {l : List α} {a : α} (h : l.head? = some a) : a ∈ l := by
  cases l with
  | nil => simp at h
  | cons b t =>
    have : b = a := by simpa using h
    subst this
    exact List.mem_cons_self b t

/-- Every hit of `exact_matches_vi` is one of the candidate sentences. -/
theorem exact_mem {q : List Char} {S : List (List Char)} {st : Bool} {h : ExactHit}
    (hh : (exact_matches_vi q S st).head? = some h) : h.sentence ∈ S := by
  have hm := head?_mem hh
  unfold exact_matches_vi at hm
  rcases List.mem_filterMap.mp hm with ⟨p, hp, hf⟩
  obtain ⟨i, x⟩ := p
  rcases List.mem_enum hp with ⟨hlt, hx⟩
  by_cases hc : (normalize_vi x st == normalize_vi q st) = true
  · rw [if_pos hc] at hf
    have hxh : ExactHit.mk i x 1 = h := by simpa using hf
    rw [← hxh]
    show x ∈ S
    rw [hx]
    exact List.getElem_mem hlt
  · rw [if_neg hc] at hf
    simp at hf

/-- Every entry of `fuzzy_topk_vi` is one of the candidate sentences. -/
theorem topk_mem {q : List Char} {S : List (List Char)} {k : Nat} {st : Bool} {c : TopkEntry}
    (hh : (fuzzy_topk_vi q S k st).head? = some c) : c.sentence ∈ S := by
  have hm := head?_mem hh
  unfold fuzzy_topk_vi at hm
  rcases List.mem_map.mp hm with ⟨p, hp, hc⟩
  obtain ⟨i, e⟩ := p
  rcases List.mem_enum hp with ⟨hlt, hx⟩
  have he : e ∈ (List.insertionSort scoredLe
      (S.enum.map (fun p => ScoredSent.mk (fuzzy_score_vi q p.2 st) p.1 p.2))).take k := by
    rw [hx]
    exact List.getElem_mem hlt
  have he2 : e ∈ List.insertionSort scoredLe
      (S.enum.map (fun p => ScoredSent.mk (fuzzy_score_vi q p.2 st) p.1 p.2)) :=
    List.Sublist.mem he (List.take_sublist k _)
  have he3 : e ∈ S.enum.map (fun p => ScoredSent.mk (fuzzy_score_vi q p.2 st) p.1 p.2) :=
    (List.perm_insertionSort scoredLe _).mem_iff.mp he2
  rcases List.mem_map.mp he3 with ⟨p2, hp2, he4⟩
  obtain ⟨j, y⟩ := p2
  rcases List.mem_enum hp2 with ⟨hlt2, hy⟩
  have hcs : c.sentence = y := by
    rw [← hc, ← he4]
  rw [hcs, hy]
  exact List.getElem_mem hlt2

/-- A stage-3 acceptance of `ultra_fast_match` is a candidate sentence. -/
theorem ufmStage3Out_mem {q s : List Char} {S : List (List Char)}
    (h : ufmStage3Out q S = some s) : s ∈ S := by
  unfold ufmStage3Out at h
  cases hh : (fuzzy_topk_vi q S 3 false).head? with
  | none => rw [hh] at h; simp at h
  | some c =>
    rw [hh] at h
    dsimp only at h
    split_ifs at h
    all_goals try simp at h
    all_goals
      have hcs : c.sentence = s := by simpa using h
      rw [← hcs]
      exact topk_mem hh

/-- A stage-4 acceptance of `ultra_fast_match` is a candidate sentence. -/
theorem ufmStage4Out_mem {q s : List Char} {S : List (List Char)}
    (h : ufmStage4Out q S = some s) : s ∈ S := by
  unfold ufmStage4Out at h
  cases hh : (fuzzy_topk_vi q S 3 true).head? with
  | none => rw [hh] at h; simp at h
  | some c =>
    rw [hh] at h
    dsimp only at h
    split_ifs at h
    all_goals try simp at h
    all_goals
      have hcs : c.sentence = s := by simpa using h
      rw [← hcs]
      exact topk_mem hh

/-- A stage-3 acceptance of `simple_sentence_match` is a candidate. -/
theorem ssmStage3Out_mem {q s : List Char} {S : List (List Char)}
    (h : ssmStage3Out q S = some s) : s ∈ S := by
  unfold ssmStage3Out at h
  cases hh : (fuzzy_topk_vi q S 5 false).head? with
  | none => rw [hh] at h; simp at h
  | some c =>
    rw [hh] at h
    dsimp only at h
    split_ifs at h
    all_goals try simp at h
    all_goals
      have hcs : c.sentence = s := by simpa using h
      rw [← hcs]
      exact topk_mem hh

/-- A stage-4 acceptance of `simple_sentence_match` is a candidate. -/
theorem ssmStage4Out_mem {q s : List Char} {S : List (List Char)}
    (h : ssmStage4Out q S = some s) : s ∈ S := by
  unfold ssmStage4Out at h
  cases hh : (fuzzy_topk_vi q S 5 true).head? with
  | none => rw [hh] at h; simp at h
  | some c =>
    rw [hh] at h
    dsimp only at h
    split_ifs at h
    all_goals try simp at h
    all_goals
      have hcs : c.sentence = s := by simpa using h
      rw [← hcs]
      exact topk_mem hh

/-- `ultra_fast_match` returns either the query or one of the candidate
texts it built from the reference. -/
theorem ufm_result (q : List Char) (d : RefData) :
    ultra_fast_match q d = q ∨ ultra_fast_match q d ∈ ufmSentences d := by
  unfold ultra_fast_match
  by_cases hg : (!refTruthy d || q.isEmpty) = true
  · rw [if_pos hg]; exact Or.inl rfl
  · rw [if_neg hg]
    by_cases hs : (ufmSentences d).isEmpty = true
    · rw [if_pos hs]; exact Or.inl rfl
    · rw [if_neg hs]
      cases h1 : (exact_matches_vi q (ufmSentences d) false).head? with
      | some h => exact Or.inr (exact_mem h1)
      | none =>
      cases h2 : (exact_matches_vi q (ufmSentences d) true).head? with
      | some h => exact Or.inr (exact_mem h2)
      | none =>
      cases h3 : ufmStage3Out q (ufmSentences d) with
      | some s => exact Or.inr (ufmStage3Out_mem h3)
      | none =>
      cases h4 : ufmStage4Out q (ufmSentences d) with
      | some s => exact Or.inr (ufmStage4Out_mem h4)
      | none => exact Or.inl rfl

/-- `simple_sentence_match` returns either the query or one of the
stripped split sentences of the reference string. -/
theorem ssm_result (q ref : List Char) :
    simple_sentence_match q ref = q ∨ simple_sentence_match q ref ∈ ssmSentences ref := by
  unfold simple_sentence_match
  by_cases hg : (ref.isEmpty || q.isEmpty) = true
  · rw [if_pos hg]; exact Or.inl rfl
  · rw [if_neg hg]
    by_cases hs : (ssmSentences ref).isEmpty = true
    · rw [if_pos hs]; exact Or.inl rfl
    · rw [if_neg hs]
      cases h1 : (exact_matches_vi q (ssmSentences ref) false).head? with
      | some h => exact Or.inr (exact_mem h1)
      | none =>
      cases h2 : (exact_matches_vi q (ssmSentences ref) true).head? with
      | some h => exact Or.inr (exact_mem h2)
      | none =>
      cases h3 : ssmStage3Out q (ssmSentences ref) with
      | some s => exact Or.inr (ssmStage3Out_mem h3)
      | none =>
      cases h4 : ssmStage4Out q (ssmSentences ref) with
      | some s => exact Or.inr (ssmStage4Out_mem h4)
      | none => exact Or.inl rfl

/-- C10: for both supported corpus shapes, the matching entry point
returns (without error) either the query verbatim or the verbatim text of
one of the candidate sentences (the parsed cache sentences, or the
sentences split from the full text); matching never edits, truncates or
concatenates text. -/
theorem C10_membership :
    (∀ (q ft : List Char) (S : List (List Char)), ∃ r,
      find_best_match q (RefData.dictFull ft S) = Except.ok r ∧
        (r = q ∨ r ∈ S ∨ r ∈ ssmSentences ft)) ∧
    (∀ (q s : List Char), ∃ r,
      find_best_match q (RefData.rawStr s) = Except.ok r ∧
        (r = q ∨ r ∈ ssmSentences s)) := by
  constructor
  · intro q ft S
    unfold find_best_match
    by_cases hg : (!refTruthy (RefData.dictFull ft S) || q.isEmpty) = true
    · rw [if_pos hg]
      exact ⟨q, rfl, Or.inl rfl⟩
    · rw [if_neg hg]
      dsimp only
      by_cases hfast : ultra_fast_match q (RefData.dictFull ft S) ≠ q
      · rw [if_pos hfast]
        refine ⟨_, rfl, ?_⟩
        rcases ufm_result q (RefData.dictFull ft S) with h | h
        · exact Or.inl h
        · exact Or.inr (Or.inl h)
      · rw [if_neg hfast]
        refine ⟨_, rfl, ?_⟩
        rcases ssm_result q ft with h | h
        · exact Or.inl h
        · exact Or.inr (Or.inr h)
  · intro q s
    unfold find_best_match
    by_cases hg : (!refTruthy (RefData.rawStr s) || q.isEmpty) = true
    · rw [if_pos hg]
      exact ⟨q, rfl, Or.inl rfl⟩
    · rw [if_neg hg]
      refine ⟨_, rfl, ?_⟩
      exact ssm_result q s

/-! ## C8: ranking order of the fuzzy top-k -/

/-- C8: the fuzzy ranking orders entries by score descending and, among
equal scores, by original corpus index ascending — the earliest sentence
in corpus order wins every tie (and the head of this list is what a fuzzy
stage returns when it accepts). -/
theorem C8_topk_order (q : List Char) (S : List (List Char)) (k : Nat) (st : Bool) :
    List.Pairwise (fun a b : TopkEntry =>
      a.score > b.score ∨ (a.score = b.score ∧ a.index < b.index))
      (fuzzy_topk_vi q S k st) := by
  unfold fuzzy_topk_vi
  have hsorted : List.Pairwise scoredLe
      (List.insertionSort scoredLe
        (S.enum.map (fun p => ScoredSent.mk (fuzzy_score_vi q p.2 st) p.1 p.2))) :=
    List.sorted_insertionSort scoredLe _
  have hidx : List.Pairwise (fun a b : ScoredSent => a.index ≠ b.index)
      (S.enum.map (fun p => ScoredSent.mk (fuzzy_score_vi q p.2 st) p.1 p.2)) := by
    have hn : (S.enum.map Prod.fst).Nodup := by
      rw [List.enum_map_fst]
      exact List.nodup_range S.length
    have hp : List.Pairwise (fun p p2 : Nat × List Char => p.1 ≠ p2.1) S.enum :=
      List.pairwise_map.mp hn
    exact List.pairwise_map.mpr (hp.imp (fun h => h))
  have hidx2 : List.Pairwise (fun a b : ScoredSent => a.index ≠ b.index)
      (List.insertionSort scoredLe
        (S.enum.map (fun p => ScoredSent.mk (fuzzy_score_vi q p.2 st) p.1 p.2))) :=
    ((List.perm_insertionSort scoredLe _).pairwise_iff (fun h => Ne.symm h)).mpr hidx
  have hstrict : List.Pairwise (fun a b : ScoredSent =>
      a.score > b.score ∨ (a.score = b.score ∧ a.index < b.index))
      (List.insertionSort scoredLe
        (S.enum.map (fun p => ScoredSent.mk (fuzzy_score_vi q p.2 st) p.1 p.2))) := by
    refine (List.Pairwise.and hsorted hidx2).imp ?_
    intro a b h
    rcases h with ⟨hle, hne⟩
    rcases hle with hgt | ⟨heq, hle2⟩
    · exact Or.inl hgt
    · exact Or.inr ⟨heq, lt_of_le_of_ne hle2 hne⟩
  have htake : List.Pairwise (fun a b : ScoredSent =>
      a.score > b.score ∨ (a.score = b.score ∧ a.index < b.index))
      ((List.insertionSort scoredLe
        (S.enum.map (fun p => ScoredSent.mk (fuzzy_score_vi q p.2 st) p.1 p.2))).take k) :=
    List.Pairwise.sublist (List.take_sublist k _) hstrict
  have henum : List.Pairwise (fun p p2 : Nat × ScoredSent =>
      p.2.score > p2.2.score ∨ (p.2.score = p2.2.score ∧ p.2.index < p2.2.index))
      ((List.insertionSort scoredLe
        (S.enum.map (fun p => ScoredSent.mk (fuzzy_score_vi q p.2 st) p.1 p.2))).take k).enum := by
    refine (@List.pairwise_map (Nat × ScoredSent) ScoredSent Prod.snd
      (fun a b : ScoredSent =>
        a.score > b.score ∨ (a.score = b.score ∧ a.index < b.index)) _).mp ?_
    rw [List.enum_map_snd]
    exact htake
  exact List.pairwise_map.mpr (henum.imp (fun h => h))

/-! ## C7: idempotence of the normalizer — character-level facts -/

theorem composePair_mem {a m c : Char} (h : composePair a m = some c) :
    (a, m, c) ∈ composeTable := by
  unfold composePair at h
  cases hf : composeTable.find? (fun t => t.1 == a && t.2.1 == m) with
  | none => rw [hf] at h; simp at h
  | some t =>
    rw [hf] at h
    have hm := List.mem_of_find?_eq_some hf
    have hp := List.find?_some hf
    obtain ⟨x, y, z⟩ := t
    have h1 : x = a := by
      have := (Bool.and_eq_true _ _).mp hp
      simpa using this.1
    have h2 : y = m := by
      have := (Bool.and_eq_true _ _).mp hp
      simpa using this.2
    have h3 : z = c := by simpa using h
    subst h1
    subst h2
    subst h3
    exact hm

theorem mem_composePair {a m c : Char} (h : (a, m, c) ∈ composeTable) :
    ∃ c2, composePair a m = some c2 := by
  unfold composePair
  cases hf : composeTable.find? (fun t => t.1 == a && t.2.1 == m) with
  | some t => exact ⟨t.2.2, rfl⟩
  | none =>
    exfalso
    have := List.find?_eq_none.mp hf (a, m, c) h
    simp at this

theorem compose_snd_mark : ∀ t ∈ composeTable, isMn t.2.1 = true := by decide

theorem compose_out_not_mark : ∀ t ∈ composeTable, isMn t.2.2 = false := by decide

theorem compose_fst_not_space : ∀ t ∈ composeTable, isPySpace t.1 = false := by decide

theorem lower_val_not_mark : ∀ p ∈ lowerTable, isMn p.2 = false := by decide

theorem lower_key_not_mark : ∀ p ∈ lowerTable, isMn p.1 = false := by decide

theorem lower_not_space : ∀ p ∈ lowerTable, isPySpace p.1 = false ∧ isPySpace p.2 = false := by
  decide

theorem lower_val_not_key : ∀ p ∈ lowerTable, ∀ q2 ∈ lowerTable, q2.1 ≠ p.2 := by decide

theorem lower_closed : ∀ p ∈ lowerTable, ∀ t ∈ composeTable, t.1 = p.2 →
    ∃ u ∈ composeTable, u.1 = p.1 ∧ u.2.1 = t.2.1 := by decide

theorem lowerChar_cases (c : Char) :
    lowerChar c = c ∨ (c, lowerChar c) ∈ lowerTable := by
  cases hf : lowerTable.find? (fun t => t.1 == c) with
  | none =>
    left
    unfold lowerChar
    rw [hf]
    rfl
  | some p =>
    right
    have hval : lowerChar c = p.2 := by unfold lowerChar; rw [hf]; rfl
    have hm := List.mem_of_find?_eq_some hf
    have hp := List.find?_some hf
    have hkey : p.1 = c := by simpa using hp
    rw [hval, ← hkey]
    exact hm

theorem isMn_lowerChar (c : Char) : isMn (lowerChar c) = isMn c := by
  rcases lowerChar_cases c with h | h
  · rw [h]
  · rw [lower_val_not_mark _ h, lower_key_not_mark _ h]

theorem isPySpace_lowerChar (c : Char) : isPySpace (lowerChar c) = isPySpace c := by
  rcases lowerChar_cases c with h | h
  · rw [h]
  · rw [(lower_not_space _ h).2, (lower_not_space _ h).1]

theorem lowerChar_idem (c : Char) : lowerChar (lowerChar c) = lowerChar c := by
  rcases lowerChar_cases c with h | h
  · rw [h, h]
  · rcases lowerChar_cases (lowerChar c) with h2 | h2
    · exact h2
    · exact absurd rfl (lower_val_not_key _ h _ h2)

theorem lowerChar_space : lowerChar ' ' = ' ' := by decide

theorem composePair_lower {a b : Char} (h : composePair a b = none) :
    composePair (lowerChar a) (lowerChar b) = none := by
  cases hx : composePair (lowerChar a) (lowerChar b) with
  | none => rfl
  | some w =>
    exfalso
    have hmem := composePair_mem hx
    have hbm : isMn (lowerChar b) = true := compose_snd_mark _ hmem
    have hb : lowerChar b = b := by
      rcases lowerChar_cases b with h2 | h2
      · exact h2
      · rw [lower_val_not_mark _ h2] at hbm
        exact absurd hbm (by simp)
    rcases lowerChar_cases a with h2 | h2
    · rw [h2, hb] at hx
      rw [h] at hx
      exact absurd hx (by simp)
    · rcases lower_closed _ h2 _ hmem rfl with ⟨u, hu, hu1, hu2⟩
      obtain ⟨x, y, z⟩ := u
      simp only at hu1 hu2
      rw [hb] at hu2
      subst hu1
      subst hu2
      rcases mem_composePair hu with ⟨c2, hc2⟩
      rw [h] at hc2
      exact absurd hc2 (by simp)

/-! ### NFC chain facts -/

theorem RComp_of_not_mark {a b : Char} (h : isMn b = false) : RComp a b := by
  unfold RComp
  cases hx : composePair a b with
  | none => rfl
  | some c =>
    have := compose_snd_mark _ (composePair_mem hx)
    rw [h] at this
    exact absurd this (by simp)

theorem RComp_space_left (b : Char) : RComp ' ' b := by
  unfold RComp
  cases hx : composePair ' ' b with
  | none => rfl
  | some c =>
    have h2 : isPySpace ' ' = false := compose_fst_not_space (' ', b, c) (composePair_mem hx)
    exact absurd h2 (by decide)

theorem RComp_space_right (a : Char) : RComp a ' ' :=
  RComp_of_not_mark (by decide)

theorem nfcGo_cons (c b : Char) (rest : List Char) :
    nfcGo c (b :: rest) =
      match composePair c b with
      | some c2 => nfcGo c2 rest
      | none => c :: nfcGo b rest := rfl

theorem nfcGo_head (c : Char) (l : List Char) :
    ∃ d t, nfcGo c l = d :: t ∧ (d = c ∨ ∃ x y, composePair x y = some d) := by
  induction l generalizing c with
  | nil => exact ⟨c, [], rfl, Or.inl rfl⟩
  | cons b rest ih =>
    cases hx : composePair c b with
    | some c2 =>
      rcases ih c2 with ⟨d, t, hdt, hd⟩
      refine ⟨d, t, ?_, ?_⟩
      · rw [nfcGo_cons, hx]
        exact hdt
      · rcases hd with rfl | hh
        · exact Or.inr ⟨c, b, hx⟩
        · exact Or.inr hh
    | none =>
      refine ⟨c, nfcGo b rest, ?_, Or.inl rfl⟩
      rw [nfcGo_cons, hx]

theorem nfcGo_chain (l : List Char) : ∀ c, List.Chain' RComp (nfcGo c l) := by
  induction l with
  | nil => intro c; exact List.chain'_singleton c
  | cons b rest ih =>
    intro c
    cases hx : composePair c b with
    | some c2 =>
      rw [nfcGo_cons, hx]
      exact ih c2
    | none =>
      rw [nfcGo_cons, hx]
      rw [List.chain'_cons']
      refine ⟨?_, ih b⟩
      intro y hy
      rcases nfcGo_head b rest with ⟨d, t, hdt, hd⟩
      rw [hdt] at hy
      simp at hy
      subst hy
      rcases hd with rfl | ⟨x, y2, hxy⟩
      · exact hx
      · exact RComp_of_not_mark (compose_out_not_mark _ (composePair_mem hxy))

theorem nfc_chain (l : List Char) : List.Chain' RComp (nfc l) := by
  cases l with
  | nil => exact List.chain'_nil
  | cons c rest => exact nfcGo_chain rest c

theorem chain_nfcGo_fix : ∀ (l : List Char) (c : Char),
    List.Chain' RComp (c :: l) → nfcGo c l = c :: l := by
  intro l
  induction l with
  | nil => intro c _; rfl
  | cons b rest ih =>
    intro c hch
    rw [List.chain'_cons'] at hch
    have hcb : RComp c b := hch.1 b rfl
    rw [nfcGo_cons, hcb]
    rw [ih b hch.2]

theorem chain_nfc_fix {l : List Char} (h : List.Chain' RComp l) : nfc l = l := by
  cases l with
  | nil => rfl
  | cons c rest => exact chain_nfcGo_fix rest c h

/-! ### Trim and collapse facts -/

theorem rtrim_cons (c : Char) (rest : List Char) :
    rtrim (c :: rest) =
      match rtrim rest with
      | [] => if isPySpace c then [] else [c]
      | r :: rs => c :: r :: rs := by
  conv_lhs => rw [rtrim.eq_def]
  dsimp only
  cases h : rtrim rest with
  | nil => rfl
  | cons r rs => rfl

theorem rtrim_shape (x : Char) (xs : List Char) :
    rtrim (x :: xs) = [] ∨ ∃ t, rtrim (x :: xs) = x :: t := by
  unfold rtrim
  cases rtrim xs with
  | nil =>
    by_cases hx : isPySpace x = true
    · left; rw [hx]; rfl
    · right
      refine ⟨[], ?_⟩
      rw [Bool.not_eq_true] at hx
      rw [hx]
      rfl
  | cons r rs => exact Or.inr ⟨r :: rs, rfl⟩

theorem rtrim_chain {l : List Char} (h : List.Chain' RComp l) :
    List.Chain' RComp (rtrim l) := by
  induction l with
  | nil => exact List.chain'_nil
  | cons c rest ih =>
    rw [List.chain'_cons'] at h
    have hr := ih h.2
    unfold rtrim
    cases hrt : rtrim rest with
    | nil =>
      by_cases hx : isPySpace c = true
      · rw [hx]; exact List.chain'_nil
      · rw [Bool.not_eq_true] at hx
        rw [hx]
        exact List.chain'_singleton c
    | cons r rs =>
      rw [List.chain'_cons']
      constructor
      · intro y hy
        simp at hy
        subst hy
        cases rest with
        | nil => simp [rtrim] at hrt
        | cons b bs =>
          rcases rtrim_shape b bs with hsh | ⟨t, hsh⟩
          · rw [hsh] at hrt; simp at hrt
          · rw [hsh] at hrt
            have : b = r := by simpa using congrArg List.head? hrt
            subst this
            exact h.1 b rfl
      · rw [← hrt]
        exact hr

theorem rtrim_idem (l : List Char) : rtrim (rtrim l) = rtrim l := by
  induction l with
  | nil => rfl
  | cons c rest ih =>
    rw [rtrim_cons]
    cases hrt : rtrim rest with
    | nil =>
      dsimp only
      by_cases hx : isPySpace c = true
      · rw [if_pos hx]
        rfl
      · rw [if_neg hx, rtrim_cons]
        dsimp only [rtrim]
        rw [if_neg hx]
    | cons r rs =>
      dsimp only
      have h2 : rtrim (r :: rs) = r :: rs := by
        rw [← hrt]
        exact ih
      rw [rtrim_cons, h2]

theorem dropWhile_headNonWs (l : List Char) :
    headNonWs (l.dropWhile isPySpace) = true := by
  induction l with
  | nil => rfl
  | cons c rest ih =>
    by_cases hx : isPySpace c = true
    · rw [List.dropWhile_cons_of_pos hx]
      exact ih
    · rw [List.dropWhile_cons_of_neg hx]
      unfold headNonWs
      simp only [List.head?_cons]
      rw [Bool.not_eq_true] at hx
      simp [hx]

theorem dropWhile_of_headNonWs {l : List Char} (h : headNonWs l = true) :
    l.dropWhile isPySpace = l := by
  cases l with
  | nil => rfl
  | cons c rest =>
    unfold headNonWs at h
    simp only [List.head?_cons] at h
    rw [List.dropWhile_cons_of_neg (by simpa using h)]

theorem rtrim_headNonWs {l : List Char} (h : headNonWs l = true) :
    headNonWs (rtrim l) = true := by
  cases l with
  | nil => rfl
  | cons c rest =>
    rcases rtrim_shape c rest with hsh | ⟨t, hsh⟩
    · rw [hsh]; rfl
    · rw [hsh]
      unfold headNonWs at h ⊢
      simpa using h

theorem rtrim_map_comm {f : Char → Char} (hf : ∀ c, isPySpace (f c) = isPySpace c)
    (l : List Char) : rtrim (l.map f) = (rtrim l).map f := by
  induction l with
  | nil => rfl
  | cons c rest ih =>
    show rtrim (f c :: rest.map f) = (rtrim (c :: rest)).map f
    unfold rtrim
    rw [ih]
    cases hrt : rtrim rest with
    | nil =>
      simp only [List.map_nil]
      rw [hf c]
      by_cases hx : isPySpace c = true
      · rw [hx]; rfl
      · rw [Bool.not_eq_true] at hx
        rw [hx]
        rfl
    | cons r rs => rfl

theorem dropWhile_map_comm {f : Char → Char} (hf : ∀ c, isPySpace (f c) = isPySpace c)
    (l : List Char) : (l.map f).dropWhile isPySpace = (l.dropWhile isPySpace).map f := by
  induction l with
  | nil => rfl
  | cons c rest ih =>
    by_cases hx : isPySpace c = true
    · rw [List.dropWhile_cons_of_pos hx, List.map_cons,
        List.dropWhile_cons_of_pos (by rw [hf c]; exact hx)]
      exact ih
    · rw [List.dropWhile_cons_of_neg hx, List.map_cons,
        List.dropWhile_cons_of_neg (by rw [hf c]; exact hx)]

theorem pyStrip_map_comm {f : Char → Char} (hf : ∀ c, isPySpace (f c) = isPySpace c)
    (l : List Char) : pyStrip (l.map f) = (pyStrip l).map f := by
  unfold pyStrip
  rw [dropWhile_map_comm hf, rtrim_map_comm hf]

theorem pyStrip_fix {l : List Char} (h1 : headNonWs l = true) (h2 : rtrim l = l) :
    pyStrip l = l := by
  unfold pyStrip
  rw [dropWhile_of_headNonWs h1, h2]

theorem pyStrip_headNonWs (l : List Char) : headNonWs (pyStrip l) = true :=
  rtrim_headNonWs (dropWhile_headNonWs l)

theorem pyStrip_rtrim_fix (l : List Char) : rtrim (pyStrip l) = pyStrip l :=
  rtrim_idem _

theorem map_fixed {f : Char → Char} {l : List Char} (h : ∀ c ∈ l, f c = c) :
    l.map f = l := by
  induction l with
  | nil => rfl
  | cons c rest ih =>
    rw [List.map_cons, h c (by simp), ih (fun x hx => h x (by simp [hx]))]

theorem mem_rtrim {l : List Char} {x : Char} (h : x ∈ rtrim l) : x ∈ l := by
  induction l with
  | nil => simp [rtrim] at h
  | cons c rest ih =>
    unfold rtrim at h
    cases hrt : rtrim rest with
    | nil =>
      rw [hrt] at h
      by_cases hx : isPySpace c = true
      · rw [hx] at h; simp at h
      · rw [Bool.not_eq_true] at hx
        rw [hx] at h
        simp at h
        simp [h]
    | cons r rs =>
      rw [hrt] at h
      rcases List.mem_cons.mp h with rfl | h2
      · simp
      · right
        exact ih (by rw [hrt]; exact h2)

theorem mem_collapseWs {l : List Char} {x : Char} (h : x ∈ collapseWs l) :
    x ∈ l ∨ x = ' ' := by
  induction l with
  | nil => simp [collapseWs] at h
  | cons c rest ih =>
    cases rest with
    | nil =>
      unfold collapseWs at h
      by_cases hx : isPySpace c = true
      · rw [hx] at h
        simp at h
        exact Or.inr h
      · rw [Bool.not_eq_true] at hx
        rw [hx] at h
        simp at h
        exact Or.inl (by simp [h])
    | cons d rest2 =>
      unfold collapseWs at h
      by_cases hx : (isPySpace c && isPySpace d) = true
      · rw [hx] at h
        rcases ih h with h2 | h2
        · exact Or.inl (List.mem_cons_of_mem c h2)
        · exact Or.inr h2
      · rw [Bool.not_eq_true] at hx
        rw [hx] at h
        rcases List.mem_cons.mp h with rfl | h2
        · by_cases hc : isPySpace c = true
          · rw [hc]; exact Or.inr rfl
          · rw [Bool.not_eq_true] at hc
            rw [hc]
            exact Or.inl (by simp)
        · rcases ih h2 with h3 | h3
          · exact Or.inl (List.mem_cons_of_mem c h3)
          · exact Or.inr h3

theorem collapseWs_head (c : Char) (rest : List Char) :
    (collapseWs (c :: rest)).head? = some (if isPySpace c then ' ' else c) := by
  induction rest generalizing c with
  | nil =>
    unfold collapseWs
    by_cases hx : isPySpace c = true
    · rw [if_pos hx, if_pos hx]
      rfl
    · rw [if_neg hx, if_neg hx]
      rfl
  | cons d rest2 ih =>
    unfold collapseWs
    by_cases hx : (isPySpace c && isPySpace d) = true
    · rw [if_pos hx]
      rw [ih d]
      rcases (Bool.and_eq_true _ _).mp hx with ⟨h1, h2⟩
      simp [h1, h2]
    · rw [if_neg hx]
      rfl

theorem collapseWs_ne_nil (c : Char) (rest : List Char) :
    collapseWs (c :: rest) ≠ [] := by
  intro h
  have := collapseWs_head c rest
  rw [h] at this
  simp at this

theorem collapseWs_chain {l : List Char} (h : List.Chain' RComp l) :
    List.Chain' RComp (collapseWs l) := by
  induction l with
  | nil => exact List.chain'_nil
  | cons c rest ih =>
    cases rest with
    | nil =>
      unfold collapseWs
      by_cases hx : isPySpace c = true
      · rw [hx]; exact List.chain'_singleton _
      · rw [Bool.not_eq_true] at hx
        rw [hx]
        exact List.chain'_singleton _
    | cons d rest2 =>
      rw [List.chain'_cons'] at h
      have htail := ih h.2
      unfold collapseWs
      by_cases hx : (isPySpace c && isPySpace d) = true
      · rw [if_pos hx]
        exact htail
      · rw [if_neg hx]
        rw [List.chain'_cons']
        refine ⟨?_, htail⟩
        intro y hy
        rw [collapseWs_head d rest2] at hy
        simp at hy
        subst hy
        by_cases hd : isPySpace d = true
        · rw [if_pos hd]
          exact RComp_space_right _
        · rw [if_neg hd]
          by_cases hc : isPySpace c = true
          · rw [if_pos hc]
            exact RComp_space_left d
          · rw [if_neg hc]
            exact h.1 d rfl

theorem collapseWs_headNonWs {l : List Char} (h : headNonWs l = true) :
    headNonWs (collapseWs l) = true := by
  cases l with
  | nil => rfl
  | cons c rest =>
    unfold headNonWs at h
    simp only [List.head?_cons] at h
    have hc : isPySpace c = false := by simpa using h
    unfold headNonWs
    rw [collapseWs_head c rest]
    simp [hc]

theorem collapseWs_rtrim_fix {l : List Char} (h : rtrim l = l) :
    rtrim (collapseWs l) = collapseWs l := by
  induction l with
  | nil => rfl
  | cons c rest ih =>
    have hrt : rtrim rest = rest := by
      rw [rtrim_cons] at h
      cases hx : rtrim rest with
      | nil =>
        rw [hx] at h
        dsimp only at h
        by_cases hc : isPySpace c = true
        · rw [if_pos hc] at h
          exact absurd h (by simp)
        · rw [if_neg hc] at h
          exact (by simpa using congrArg List.tail h : ([] : List Char) = rest)
      | cons r rs =>
        rw [hx] at h
        dsimp only at h
        exact (by simpa using congrArg List.tail h : r :: rs = rest)
    cases rest with
    | nil =>
      have hc : isPySpace c = false := by
        by_contra hcc
        rw [Bool.not_eq_false] at hcc
        rw [rtrim_cons] at h
        dsimp only [rtrim] at h
        rw [if_pos hcc] at h
        exact absurd h (by simp)
      show rtrim (collapseWs [c]) = collapseWs [c]
      unfold collapseWs
      rw [if_neg (by simp [hc])]
      rw [rtrim_cons]
      dsimp only [rtrim]
      rw [if_neg (by simp [hc])]
    | cons d rest2 =>
      have hihres := ih hrt
      unfold collapseWs
      by_cases hx : (isPySpace c && isPySpace d) = true
      · rw [if_pos hx]
        exact hihres
      · rw [if_neg hx]
        rw [rtrim_cons]
        cases hy : collapseWs (d :: rest2) with
        | nil => exact absurd hy (collapseWs_ne_nil d rest2)
        | cons r rs =>
          rw [← hy, hihres, hy]

/-! ### Whitespace-canonical form -/

theorem collapseWs_wsCanonical (l : List Char) : wsCanonical (collapseWs l) = true := by
  induction l with
  | nil => rfl
  | cons c rest ih =>
    cases rest with
    | nil =>
      unfold collapseWs
      by_cases hx : isPySpace c = true
      · rw [if_pos hx]
        decide
      · rw [if_neg hx]
        unfold wsCanonical
        simp [hx]
    | cons d rest2 =>
      unfold collapseWs
      by_cases hx : (isPySpace c && isPySpace d) = true
      · rw [if_pos hx]
        exact ih
      · rw [if_neg hx]
        cases hy : collapseWs (d :: rest2) with
        | nil => exact absurd hy (collapseWs_ne_nil d rest2)
        | cons e es =>
          have hihres : wsCanonical (e :: es) = true := by rw [← hy]; exact ih
          have hhead : e = if isPySpace d then ' ' else d := by
            have := collapseWs_head d rest2
            rw [hy] at this
            simpa using this
          unfold wsCanonical
          rw [hihres]
          rw [Bool.and_true]
          by_cases hc : isPySpace c = true
          · have hd : isPySpace d = false := by
              by_contra hdd
              rw [Bool.not_eq_false] at hdd
              rw [hc, hdd] at hx
              simp at hx
            rw [if_pos hc, hhead]
            simp [hd]
          · rw [if_neg hc]
            simp [hc]

theorem wsCanonical_fix {l : List Char} (h : wsCanonical l = true) :
    collapseWs l = l := by
  induction l with
  | nil => rfl
  | cons c rest ih =>
    cases rest with
    | nil =>
      unfold wsCanonical at h
      unfold collapseWs
      by_cases hx : isPySpace c = true
      · have hsp : c = ' ' := by
          rw [hx] at h
          simpa using h
        rw [if_pos hx, hsp]
      · rw [if_neg hx]
    | cons d rest2 =>
      unfold wsCanonical at h
      rcases (Bool.and_eq_true _ _).mp h with ⟨hcond, htail⟩
      unfold collapseWs
      by_cases hc : isPySpace c = true
      · have hsp : c = ' ' ∧ isPySpace d = false := by
          rw [hc] at hcond
          simpa using hcond
        rw [if_neg (by simp [hsp.2]), hsp.1]
        have := ih htail
        rw [this]
        simp
      · rw [if_neg (by simp [hc])]
        rw [if_neg hc]
        rw [ih htail]

theorem wsCanonical_map {f : Char → Char} (hsp : ∀ c, isPySpace (f c) = isPySpace c)
    (hspc : f ' ' = ' ') {l : List Char} (h : wsCanonical l = true) :
    wsCanonical (l.map f) = true := by
  induction l with
  | nil => rfl
  | cons c rest ih =>
    cases rest with
    | nil =>
      unfold wsCanonical at h
      show wsCanonical [f c] = true
      unfold wsCanonical
      by_cases hx : isPySpace c = true
      · have hc : c = ' ' := by rw [hx] at h; simpa using h
        rw [hc, hspc]
        decide
      · simp [hsp c, hx]
    | cons d rest2 =>
      unfold wsCanonical at h
      rcases (Bool.and_eq_true _ _).mp h with ⟨hcond, htail⟩
      show wsCanonical (f c :: f d :: rest2.map f) = true
      have hih : wsCanonical (f d :: rest2.map f) = true := by
        rw [← List.map_cons]
        exact ih htail
      unfold wsCanonical
      rw [hih, Bool.and_true]
      by_cases hx : isPySpace c = true
      · have hc : c = ' ' ∧ isPySpace d = false := by
          rw [hx] at hcond
          simpa using hcond
        rw [hc.1, hspc]
        simp [hsp d, hc.2]
      · simp [hsp c, hx]

/-! ### Mark-free strings and tone stripping -/

theorem noBareMarks_of_mem {l1 l2 : List Char} (hsub : ∀ x ∈ l2, x ∈ l1)
    (h : noBareMarks l1 = true) : noBareMarks l2 = true := by
  unfold noBareMarks at h ⊢
  rw [List.all_eq_true] at h ⊢
  intro x hx
  exact h x (hsub x hx)

theorem markFree_chain {l : List Char} (h : noBareMarks l = true) :
    List.Chain' RComp l := by
  induction l with
  | nil => exact List.chain'_nil
  | cons c rest ih =>
    unfold noBareMarks at h
    rw [List.all_cons] at h
    rcases (Bool.and_eq_true _ _).mp h with ⟨_, htail⟩
    rw [List.chain'_cons']
    refine ⟨?_, ih htail⟩
    intro y hy
    cases rest with
    | nil => simp at hy
    | cons d rest2 =>
      simp at hy
      subst hy
      rw [List.all_cons] at htail
      rcases (Bool.and_eq_true _ _).mp htail with ⟨hd, _⟩
      exact RComp_of_not_mark (by simpa using hd)

theorem markFree_nfc_fix {l : List Char} (h : noBareMarks l = true) : nfc l = l :=
  chain_nfc_fix (markFree_chain h)

theorem space_not_mark : isMn ' ' = false := by decide

theorem nfd_shape : ∀ r ∈ nfdTable, r.2 ≠ [] ∧ isMn (r.2.headD 'a') = false ∧
    r.2.tail.all isMn = true := by decide

theorem nfd_key_not_space : ∀ r ∈ nfdTable, isPySpace r.1 = false := by decide

theorem nfd_head_not_space : ∀ r ∈ nfdTable, isPySpace (r.2.headD 'a') = false := by decide

theorem nfd_head_not_key : ∀ r ∈ nfdTable, ∀ r2 ∈ nfdTable, r2.1 ≠ r.2.headD 'a' := by
  decide

theorem nfd_head_lower : ∀ r ∈ nfdTable, lowerChar r.1 = r.1 →
    lowerChar (r.2.headD 'a') = r.2.headD 'a' := by decide

theorem nfdChar_cases (c : Char) :
    nfdChar c = [c] ∨ (c, nfdChar c) ∈ nfdTable := by
  cases hf : nfdTable.find? (fun t => t.1 == c) with
  | none =>
    left
    unfold nfdChar
    rw [hf]
    rfl
  | some p =>
    right
    have hval : nfdChar c = p.2 := by unfold nfdChar; rw [hf]; rfl
    have hm := List.mem_of_find?_eq_some hf
    have hp := List.find?_some hf
    have hkey : p.1 = c := by simpa using hp
    rw [hval, ← hkey]
    exact hm

theorem headD_congr {l : List Char} (h : l ≠ []) (a b : Char) : l.headD a = l.headD b := by
  cases l with
  | nil => exact absurd rfl h
  | cons x t => rfl

theorem stripChar_headD (c : Char) (h : (c, nfdChar c) ∈ nfdTable) :
    stripChar c = (nfdChar c).headD 'a' := by
  have hne : nfdChar c ≠ [] := (nfd_shape _ h).1
  unfold stripChar
  exact headD_congr hne c 'a'

theorem stripChar_space_eq (c : Char) : isPySpace (stripChar c) = isPySpace c := by
  rcases nfdChar_cases c with h | h
  · unfold stripChar
    rw [h]
    rfl
  · have h1 : isPySpace c = false := nfd_key_not_space _ h
    have h2 : isPySpace ((nfdChar c).headD 'a') = false := nfd_head_not_space _ h
    rw [stripChar_headD c h, h2, h1]

theorem stripChar_space : stripChar ' ' = ' ' := by decide

theorem stripChar_not_mark {c : Char} (h : isMn c = false) :
    isMn (stripChar c) = false := by
  rcases nfdChar_cases c with h2 | h2
  · unfold stripChar
    rw [h2]
    exact h
  · rw [stripChar_headD c h2]
    exact (nfd_shape _ h2).2.1

theorem nfdChar_of_not_key {c : Char} (h : ∀ r ∈ nfdTable, r.1 ≠ c) :
    nfdChar c = [c] := by
  rcases nfdChar_cases c with h2 | h2
  · exact h2
  · exact absurd rfl (h _ h2)

theorem stripChar_idem (c : Char) : stripChar (stripChar c) = stripChar c := by
  rcases nfdChar_cases c with h | h
  · have hc : stripChar c = c := by
      unfold stripChar
      rw [h]
      rfl
    rw [hc]
    exact hc
  · have hkey : ∀ r ∈ nfdTable, r.1 ≠ stripChar c := by
      intro r hr
      rw [stripChar_headD c h]
      exact nfd_head_not_key _ h r hr
    have hid : nfdChar (stripChar c) = [stripChar c] := nfdChar_of_not_key hkey
    show (nfdChar (stripChar c)).headD (stripChar c) = stripChar c
    rw [hid]
    rfl

theorem stripChar_lower {c : Char} (h : lowerChar c = c) :
    lowerChar (stripChar c) = stripChar c := by
  rcases nfdChar_cases c with h2 | h2
  · unfold stripChar
    rw [h2]
    exact h
  · rw [stripChar_headD c h2]
    exact nfd_head_lower _ h2 h

theorem nfdChar_filter {c : Char} (h : isMn c = false) :
    (nfdChar c).filter (fun x => !(isMn x)) = [stripChar c] := by
  rcases nfdChar_cases c with h2 | h2
  · rw [h2]
    unfold stripChar
    rw [h2]
    rw [List.filter_cons_of_pos (by simp [h])]
    rfl
  · rcases nfd_shape _ h2 with ⟨hne, hhead, htail⟩
    cases hn : nfdChar c with
    | nil =>
      exfalso
      apply hne
      simpa using hn
    | cons b t =>
      have hb : isMn b = false := by
        have hh : isMn ((nfdChar c).headD 'a') = false := hhead
        rw [hn] at hh
        simpa using hh
      have ht : t.all isMn = true := by
        have hh : (nfdChar c).tail.all isMn = true := htail
        rw [hn] at hh
        simpa using hh
      rw [List.filter_cons_of_pos (by simp [hb])]
      have htf : t.filter (fun x => !(isMn x)) = [] := by
        rw [List.filter_eq_nil_iff]
        intro a ha
        have := List.all_eq_true.mp ht a ha
        simp [this]
      rw [htf]
      have hsc : stripChar c = b := by
        unfold stripChar
        rw [hn]
        rfl
      rw [hsc]

theorem nfd_filter_map {l : List Char} (h : noBareMarks l = true) :
    (nfd l).filter (fun x => !(isMn x)) = l.map stripChar := by
  induction l with
  | nil => rfl
  | cons c rest ih =>
    rw [noBareMarks, List.all_cons] at h
    rcases (Bool.and_eq_true _ _).mp h with ⟨hc, htail⟩
    unfold nfd
    rw [List.flatMap_cons, List.filter_append]
    rw [nfdChar_filter (by simpa using hc)]
    have := ih htail
    unfold nfd at this
    rw [this]
    rfl

/-! ### The normalizer pipeline's invariants -/

theorem headNonWs_map {f : Char → Char} (hsp : ∀ c, isPySpace (f c) = isPySpace c)
    {l : List Char} (h : headNonWs l = true) : headNonWs (l.map f) = true := by
  cases l with
  | nil => rfl
  | cons c rest =>
    unfold headNonWs at h ⊢
    simp only [List.head?_cons] at h
    simp only [List.map_cons, List.head?_cons]
    rw [hsp c]
    exact h

theorem noBareMarks_mem {l : List Char} (h : noBareMarks l = true) {x : Char}
    (hx : x ∈ l) : isMn x = false := by
  unfold noBareMarks at h
  rw [List.all_eq_true] at h
  simpa using h x hx

theorem normalize_false_props (s : List Char) :
    List.Chain' RComp (normalize_vi s false) ∧
    headNonWs (normalize_vi s false) = true ∧
    rtrim (normalize_vi s false) = normalize_vi s false ∧
    (∀ x ∈ normalize_vi s false, lowerChar x = x) ∧
    wsCanonical (normalize_vi s false) = true := by
  have hdef : normalize_vi s false = collapseWs ((pyStrip (nfc s)).map lowerChar) := rfl
  rw [hdef]
  refine ⟨?_, ?_, ?_, ?_, ?_⟩
  · apply collapseWs_chain
    refine (List.chain'_map lowerChar).mpr ?_
    refine List.Chain'.imp (fun a b hab => composePair_lower hab) ?_
    apply rtrim_chain
    exact List.Chain'.suffix (nfc_chain s) (List.dropWhile_suffix _)
  · apply collapseWs_headNonWs
    apply headNonWs_map isPySpace_lowerChar
    exact pyStrip_headNonWs _
  · apply collapseWs_rtrim_fix
    rw [rtrim_map_comm isPySpace_lowerChar]
    rw [pyStrip_rtrim_fix]
  · intro x hx
    rcases mem_collapseWs hx with h2 | h2
    · rcases List.mem_map.mp h2 with ⟨y, _, rfl⟩
      exact lowerChar_idem y
    · rw [h2]
      exact lowerChar_space
  · exact collapseWs_wsCanonical _

theorem normalize_false_fix_of {u : List Char}
    (h1 : List.Chain' RComp u) (h2 : headNonWs u = true) (h3 : rtrim u = u)
    (h4 : ∀ x ∈ u, lowerChar x = x) (h5 : wsCanonical u = true) :
    normalize_vi u false = u := by
  show collapseWs ((pyStrip (nfc u)).map lowerChar) = u
  rw [chain_nfc_fix h1, pyStrip_fix h2 h3, map_fixed h4]
  exact wsCanonical_fix h5

theorem normalize_false_markFree {s : List Char} (h : noBareMarks s = true) :
    noBareMarks (normalize_vi s false) = true := by
  have hdef : normalize_vi s false = collapseWs ((pyStrip (nfc s)).map lowerChar) := rfl
  rw [hdef]
  have h1 : noBareMarks (nfc s) = true := by
    rw [markFree_nfc_fix h]
    exact h
  have h2 : noBareMarks (pyStrip (nfc s)) = true := by
    apply noBareMarks_of_mem _ h1
    intro x hx
    exact List.Sublist.mem (mem_rtrim hx) (List.dropWhile_sublist _)
  have h3 : noBareMarks ((pyStrip (nfc s)).map lowerChar) = true := by
    unfold noBareMarks
    rw [List.all_eq_true]
    intro x hx
    rcases List.mem_map.mp hx with ⟨y, hy, rfl⟩
    simp [isMn_lowerChar, noBareMarks_mem h2 hy]
  unfold noBareMarks
  rw [List.all_eq_true]
  intro x hx
  rcases mem_collapseWs hx with h4 | h4
  · exact List.all_eq_true.mp h3 x h4
  · rw [h4]
    simp [space_not_mark]

theorem normalize_true_eq {s : List Char} (h : noBareMarks s = true) :
    normalize_vi s true = (normalize_vi s false).map stripChar := by
  have hmf := normalize_false_markFree h
  have hdef : normalize_vi s true =
      nfc ((nfd (normalize_vi s false)).filter (fun c => !(isMn c))) := rfl
  rw [hdef, nfd_filter_map hmf]
  apply markFree_nfc_fix
  unfold noBareMarks
  rw [List.all_eq_true]
  intro x hx
  rcases List.mem_map.mp hx with ⟨y, hy, rfl⟩
  simp [stripChar_not_mark (noBareMarks_mem hmf hy)]

/-! ### C7: the claim -/

/-- C7 counterexample: idempotence fails for `stripTone = true` on the
string `"a ́"` (the letter a, a space, and a bare combining acute).
The first normalization drops the isolated mark and leaves the trailing
space it had hidden, `"a "`; normalizing again trims that space, giving
`"a"`. -/
theorem C7_counterexample :
    normalize_vi (normalize_vi ['a', ' ', '́'] true) true ≠
      normalize_vi ['a', ' ', '́'] true := by decide

/-- C7 (amended): `normalize_vi` is idempotent for `stripTone = false` on
every string; for `stripTone = true` it is idempotent on every string
with no bare combining-mark characters (marks occurring only inside
precomposed characters).  An isolated combining mark adjacent to
whitespace breaks idempotence, because dropping the mark exposes new
whitespace at an edge or a new whitespace run. -/
theorem C7_amended (s : List Char) :
    normalize_vi (normalize_vi s false) false = normalize_vi s false ∧
      (noBareMarks s = true →
        normalize_vi (normalize_vi s true) true = normalize_vi s true) := by
  constructor
  · rcases normalize_false_props s with ⟨h1, h2, h3, h4, h5⟩
    exact normalize_false_fix_of h1 h2 h3 h4 h5
  · intro hs
    have hveq := normalize_true_eq hs
    rcases normalize_false_props s with ⟨h1, h2, h3, h4, h5⟩
    have hmfv := normalize_false_markFree hs
    have hu1 : noBareMarks (normalize_vi s true) = true := by
      rw [hveq]
      unfold noBareMarks
      rw [List.all_eq_true]
      intro x hx
      rcases List.mem_map.mp hx with ⟨y, hy, rfl⟩
      simp [stripChar_not_mark (noBareMarks_mem hmfv hy)]
    have hu2 : headNonWs (normalize_vi s true) = true := by
      rw [hveq]
      exact headNonWs_map stripChar_space_eq h2
    have hu3 : rtrim (normalize_vi s true) = normalize_vi s true := by
      rw [hveq, rtrim_map_comm stripChar_space_eq, h3]
    have hu4 : ∀ x ∈ normalize_vi s true, lowerChar x = x := by
      rw [hveq]
      intro x hx
      rcases List.mem_map.mp hx with ⟨y, hy, rfl⟩
      exact stripChar_lower (h4 y hy)
    have hu5 : wsCanonical (normalize_vi s true) = true := by
      rw [hveq]
      exact wsCanonical_map stripChar_space_eq stripChar_space h5
    have hufix : normalize_vi (normalize_vi s true) false = normalize_vi s true :=
      normalize_false_fix_of (markFree_chain hu1) hu2 hu3 hu4 hu5
    have hstep : normalize_vi (normalize_vi s true) true =
        nfc ((nfd (normalize_vi (normalize_vi s true) false)).filter
          (fun c => !(isMn c))) := rfl
    rw [hstep, hufix, nfd_filter_map hu1]
    rw [hveq, List.map_map]
    have hcomp : (normalize_vi s false).map (stripChar ∘ stripChar) =
        (normalize_vi s false).map stripChar :=
      List.map_congr_left (fun x _ => stripChar_idem x)
    rw [hcomp]
    rw [← hveq]
    exact markFree_nfc_fix hu1

/-- C7 witness: idempotence (both flags) at the concrete string
`"  Tôi  ĐI  làm. "`, which carries no bare combining marks. -/
theorem C7_witness :
    normalize_vi (normalize_vi "  Tôi  ĐI  làm. ".data false) false =
        normalize_vi "  Tôi  ĐI  làm. ".data false ∧
      noBareMarks "  Tôi  ĐI  làm. ".data = true ∧
      normalize_vi (normalize_vi "  Tôi  ĐI  làm. ".data true) true =
        normalize_vi "  Tôi  ĐI  làm. ".data true :=
  ⟨(C7_amended "  Tôi  ĐI  làm. ".data).1, by decide,
   (C7_amended "  Tôi  ĐI  làm. ".data).2 (by decide)⟩

end AudioProc
